import Mathlib

/-!
# The sort node (`src/nodes/core/logic/18-sort.js`)

A shallow embedding of the node's message handler `process_msg` and of the
functions it is built from (`gen_comp`, `send_group`, `sort_payload`,
`check_parts`, `max_kept_msgs_count`), followed by the properties of the
specification that were checked against it.

Conventions of the embedding:

* JavaScript values are the inductive type `JVal`.  Numbers are `NaN` or an
  integer: the comparator only tests numbers with `===` and `>`, which are
  exact, so the order of the numbers is all that matters here.  Fractions,
  infinities and the rounding of doubles are outside the model.
* Objects and arrays are values without identity: two occurrences are two
  references, so `===` between them is false.
* The node mutates `pending`, `pending_count` and the messages in place and
  calls `node.send` and `node.error`.  Here `process_msg` takes the state and
  returns the new state together with the list of calls it made, in order.
* `Array.prototype.sort` belongs to the host.  It is modelled as the stable
  insertion sort the host applies to short arrays, run in the exception monad
  so that a comparator that throws aborts the sort.
* The JSONata evaluator belongs to the runtime.  A compiled expression is a
  function `JVal → Option JVal`, `none` standing for an evaluation error.
-/

namespace SortNode

/-! ## Values -/

/-- A JavaScript number, up to the order of its value. -/
inductive JNum where
  | nan
  | fin (i : Int)
  deriving DecidableEq, Repr

/-- A JavaScript value. -/
inductive JVal where
  | undefined
  | null
  | bool (b : Bool)
  | num (n : JNum)
  | str (s : String)
  | arr (elems : List JVal)
  | obj (fields : List (String × JVal))

/-- The number `i` as a value. -/
def JVal.int (i : Int) : JVal := .num (.fin i)

/-- The decimal digit `d` as a character. -/
def digitChar (d : Nat) : Char := Char.ofNat (48 + d)

/-- Decimal digits of `n`, most significant first; `fuel` bounds the length. -/
def natDigits : Nat → Nat → List Char
  | 0, _ => []
  | fuel + 1, n =>
    if n < 10 then [digitChar n] else natDigits fuel (n / 10) ++ [digitChar (n % 10)]

/-- Number-to-string conversion on the integers. -/
def intToStr : Int → String
  | .ofNat n => ⟨natDigits (n + 1) n⟩
  | .negSucc n => ⟨'-' :: natDigits (n + 2) (n + 1)⟩

/-- Holds of `undefined` and `null`, which `Array.prototype.join` prints as
the empty string. -/
def JVal.isNullish : JVal → Bool
  | .undefined => true
  | .null => true
  | _ => false

mutual
/-- The abstract operation `ToString` on plain values: an array is joined with
commas, a plain object prints as `[object Object]`. -/
def JVal.toStr : JVal → String
  | .undefined => "undefined"
  | .null => "null"
  | .bool b => if b then "true" else "false"
  | .num .nan => "NaN"
  | .num (.fin i) => intToStr i
  | .str s => s
  | .arr l => JVal.joinStr l
  | .obj _ => "[object Object]"
termination_by structural v => v
/-- What `Array.prototype.join` returns with the default separator. -/
def JVal.joinStr : List JVal → String
  | [] => ""
  | x :: r =>
    (if x.isNullish then "" else JVal.toStr x) ++ (if r.isEmpty then "" else ",")
      ++ JVal.joinStr r
termination_by structural l => l
end

/-- White space that `Number` strips from both ends of a string. -/
def isJsSpace (c : Char) : Bool :=
  c.toNat == 32 || c.toNat == 9 || c.toNat == 10 || c.toNat == 11 || c.toNat == 12
    || c.toNat == 13 || c.toNat == 160

/-- Strips white space from both ends. -/
def trimSpace (cs : List Char) : List Char :=
  ((cs.dropWhile isJsSpace).reverse.dropWhile isJsSpace).reverse

/-- Reads a run of decimal digits onto the accumulator `acc`; `none` when a
character is not a digit. -/
def readDigits : List Char → Nat → Option Nat
  | [], acc => some acc
  | c :: cs, acc =>
    if 48 ≤ c.toNat ∧ c.toNat ≤ 57 then readDigits cs (10 * acc + (c.toNat - 48)) else none

/-- A non-empty run of decimal digits as a natural number. -/
def parseNat : List Char → Option Nat
  | [] => none
  | cs => readDigits cs 0

/-- The conversion `Number(s)` of a string: the empty or blank string is 0, a
decimal integer literal with an optional sign is its value, and a string that
is not a numeric literal is `NaN`.  The literals whose value is not an integer
of the model (fractions, exponents, other radices, `Infinity`) are not read:
the properties below depend on the result of the conversion only. -/
def stringToNumber (s : String) : JNum :=
  match trimSpace s.data with
  | [] => .fin 0
  | '-' :: r =>
    match parseNat r with
    | some n => .fin (-(n : Int))
    | none => .nan
  | '+' :: r =>
    match parseNat r with
    | some n => .fin (n : Int)
    | none => .nan
  | r =>
    match parseNat r with
    | some n => .fin (n : Int)
    | none => .nan

/-- The abstract operation `ToPrimitive` on plain values. -/
def JVal.toPrimitive : JVal → JVal
  | .arr l => .str (JVal.joinStr l)
  | .obj _ => .str "[object Object]"
  | v => v

/-- The conversion `Number(x)`. -/
def JVal.toNumber : JVal → JNum
  | .undefined => .nan
  | .null => .fin 0
  | .bool b => .fin (if b then 1 else 0)
  | .num n => n
  | .str s => stringToNumber s
  | .arr l => stringToNumber (JVal.joinStr l)
  | .obj _ => .nan

/-- Strict equality `x === y`.  `NaN` is not equal to itself, and two objects or
arrays are two references. -/
def JVal.strictEq : JVal → JVal → Bool
  | .undefined, .undefined => true
  | .null, .null => true
  | .bool a, .bool b => a == b
  | .num (.fin a), .num (.fin b) => a == b
  | .str a, .str b => a == b
  | _, _ => false

/-- The abstract relational comparison `x < y`; `none` is its result
`undefined`, which it gives when a side converts to `NaN`.  Two strings are
compared character by character (by code point), every other pair by numeric
value. -/
def JVal.relLt (x y : JVal) : Option Bool :=
  match x.toPrimitive, y.toPrimitive with
  | .str a, .str b => some (decide (a.data < b.data))
  | px, py =>
    match px.toNumber, py.toNumber with
    | .fin a, .fin b => some (decide (a < b))
    | _, _ => none

/-- The operator `x > y`. -/
def JVal.gt (x y : JVal) : Bool := JVal.relLt y x == some true

/-- The operator `x <= y`. -/
def JVal.le (x y : JVal) : Bool := JVal.relLt y x == some false

/-- The operator `x >= y`. -/
def JVal.ge (x y : JVal) : Bool := JVal.relLt x y == some false

/-- Looks up an own property of an object; a property that is absent, or any
property of a value that is not an object, reads as `undefined`. -/
def JVal.field (name : String) : JVal → JVal
  | .obj fields => (fields.lookup name).getD .undefined
  | _ => .undefined

/-! ## Messages -/

/-- The `parts` descriptor of a message.  A field is `none` when the object has
no own property of that name; `extra` holds its other properties. -/
structure Parts where
  id : Option JVal
  index : Option JVal
  count : Option JVal
  extra : List (String × JVal)

/-- A message: its `payload` (`undefined` when absent), its `parts` descriptor
(`none` when the message has no own property `parts`) and its other
properties. -/
structure Msg where
  payload : JVal
  parts : Option Parts
  extra : List (String × JVal)

/-- The fields of an optional property. -/
def optField (name : String) : Option JVal → List (String × JVal)
  | some v => [(name, v)]
  | none => []

/-- The descriptor as the object the expression evaluator sees. -/
def Parts.toJVal (p : Parts) : JVal :=
  .obj (optField "id" p.id ++ optField "index" p.index ++ optField "count" p.count ++ p.extra)

/-- The message as the object the expression evaluator sees. -/
def Msg.toJVal (m : Msg) : JVal :=
  .obj (("payload", m.payload) :: (optField "parts" (m.parts.map Parts.toJVal) ++ m.extra))

/-- The assignment `msg.parts.index = i`.  Every message that `process_msg`
buffers has a `parts` descriptor; a message without one is left as it is. -/
def Msg.setIndex (m : Msg) (i : Nat) : Msg :=
  { m with parts := m.parts.map fun p => { p with index := some (JVal.int i) } }

/-- The message without `parts.index`: every other field is kept. -/
def Msg.dropIndex (m : Msg) : Msg :=
  { m with parts := m.parts.map fun p => { p with index := none } }

/-- A call the node makes on its host: `node.send(msg)` or
`node.error(text, msg)`; `ctx` is `none` when `node.error` is called with the
text alone. -/
inductive Event where
  | send (msg : Msg)
  | error (text : String) (ctx : Option Msg)

/-- Holds of the `node.send` calls. -/
def Event.isSend : Event → Bool
  | .send _ => true
  | .error _ _ => false

/-- Holds of the `node.error` calls. -/
def Event.isError : Event → Bool
  | .send _ => false
  | .error _ _ => true

/-- The messages sent, in order. -/
def sent : List Event → List Msg
  | [] => []
  | .send m :: r => m :: sent r
  | .error _ _ :: r => sent r

/-- The error reports, in order. -/
def errors : List Event → List Event := List.filter Event.isError

/-! ## Configuration -/

/-- The configuration of a node instance, as `SortNode` sets it up:
`order` is `n.order || "ascending"`, `as_num` is `n.as_num || false`,
`key_exp` is `none` when `n.keyType === 'payload'` and the compiled expression
otherwise, and `max_msgs` is the setting `sortMaxKeptMsgsCount` that
`max_kept_msgs_count` returns, a number of messages, 0 when it is not set. -/
structure Config where
  order : String
  as_num : Bool
  key_exp : Option (JVal → Option JVal)
  max_msgs : Nat

/-- Line 62: `key_is_payload`. -/
def Config.key_is_payload (cfg : Config) : Bool := cfg.key_exp.isNone

/-- Line 73: `dir`. -/
def dir (cfg : Config) : Int := if cfg.order == "ascending" then 1 else -1

/-- Lines 74-76: `conv`. -/
def conv (cfg : Config) (x : JVal) : JVal :=
  if cfg.as_num then .num x.toNumber else x

/-- Lines 22-33: `max_kept_msgs_count`. -/
def max_kept_msgs_count (cfg : Config) : Nat := cfg.max_msgs

/-- Lines 35-43: `eval_jsonata`.  When the evaluation throws, the node reports
`sort.invalid-exp` and throws again; the exception carries that report. -/
def eval_jsonata (code : JVal → Option JVal) (val : JVal) : Except Event JVal :=
  match code val with
  | some v => .ok v
  | none => .error (.error "sort.invalid-exp" none)

/-- Lines 78-86: `gen_comp`. -/
def gen_comp {α : Type} (cfg : Config) (key : α → Except Event JVal) (x y : α) :
    Except Event Int :=
  match key x with
  | .error e => .error e
  | .ok kx =>
    match key y with
    | .error e => .error e
    | .ok ky =>
      let xp := conv cfg kx
      let yp := conv cfg ky
      if JVal.strictEq xp yp then .ok 0
      else if JVal.gt xp yp then .ok (dir cfg)
      else .ok (-(dir cfg))

/-! ## The host's sort -/

/-- One pass of the inner loop of the insertion sort: `rev` is the sorted
prefix, last element first, and `e` the element to insert.  Elements for which
`comp tmp e > 0` move one place up, and `e` is placed at the first that does
not. -/
def insertRev {α ε : Type} (comp : α → α → Except ε Int) (e : α) : List α → Except ε (List α)
  | [] => .ok [e]
  | tmp :: rest =>
    match comp tmp e with
    | .error err => .error err
    | .ok order =>
      if order > 0 then
        match insertRev comp e rest with
        | .error err => .error err
        | .ok r => .ok (tmp :: r)
      else .ok (e :: tmp :: rest)

/-- The outer loop of the insertion sort: `rev` is the sorted prefix, last
element first. -/
def sortLoop {α ε : Type} (comp : α → α → Except ε Int) : List α → List α → Except ε (List α)
  | rev, [] => .ok rev.reverse
  | rev, e :: rest =>
    match insertRev comp e rev with
    | .error err => .error err
    | .ok rev1 => sortLoop comp rev1 rest

/-- The call `xs.sort(comp)` on an array without `undefined` elements. -/
def arraySort {α ε : Type} (comp : α → α → Except ε Int) (xs : List α) : Except ε (List α) :=
  sortLoop comp [] xs

/-- Holds of `undefined`. -/
def JVal.isUndefined : JVal → Bool
  | .undefined => true
  | _ => false

/-- The comparison the host's sort makes between two elements (`SortCompare`):
`undefined` goes after every other element and the comparator is not called
on it. -/
def sortCompare {ε : Type} (comp : JVal → JVal → Except ε Int) (x y : JVal) : Except ε Int :=
  if x.isUndefined then (if y.isUndefined then .ok 0 else .ok 1)
  else if y.isUndefined then .ok (-1)
  else comp x y

/-! ## The node -/

/-- A group of `pending`: `{count, msgs}`. -/
structure Group where
  count : JVal
  msgs : List Msg

/-- The state of an instance: the object `pending`, a dictionary from property
key to group, and the counter `pending_count`.  The keys are ordinary property
names, and the first entry of a key is the one that is read. -/
structure State where
  pending : List (String × Group)
  pending_count : Int

/-- The test `pending.hasOwnProperty(gid)` and the read `pending[gid]`. -/
def lookupGroup (gid : String) : List (String × Group) → Option Group
  | [] => none
  | (k, g) :: r => if k == gid then some g else lookupGroup gid r

/-- The statement `delete pending[gid]`. -/
def eraseGroup (gid : String) : List (String × Group) → List (String × Group)
  | [] => []
  | (k, g) :: r => if k == gid then eraseGroup gid r else (k, g) :: eraseGroup gid r

/-- The effect on `pending` of writing the group under `gid`. -/
def storeGroup (gid : String) (g : Group) (pending : List (String × Group)) :
    List (String × Group) :=
  (gid, g) :: eraseGroup gid pending

/-- The number of messages buffered in `pending`. -/
def total : List (String × Group) → Int
  | [] => 0
  | (_, g) :: r => (g.msgs.length : Int) + total r

/-- The key function of `send_group` (lines 89-93). -/
def msgKey (cfg : Config) (msg : Msg) : Except Event JVal :=
  match cfg.key_exp with
  | none => .ok msg.payload
  | some code => eval_jsonata code msg.toJVal

/-- The key function of `sort_payload` (lines 112-116). -/
def elemKey (cfg : Config) (elem : JVal) : Except Event JVal :=
  match cfg.key_exp with
  | none => .ok elem
  | some code => eval_jsonata code elem

/-- Lines 102-106: the loop that numbers and sends the sorted messages, from
position `i` on. -/
def sendFrom : Nat → List Msg → List Event
  | _, [] => []
  | i, msg :: rest => .send (msg.setIndex i) :: sendFrom (i + 1) rest

/-- Lines 88-107: `send_group`.  The calls it makes: when the sort throws, the
report `eval_jsonata` made before throwing, and nothing is sent. -/
def send_group (cfg : Config) (group : Group) : List Event :=
  match arraySort (gen_comp cfg (msgKey cfg)) group.msgs with
  | .error e => [e]
  | .ok msgs => sendFrom 0 msgs

/-- Lines 109-127: `sort_payload`.  The result is the message with its payload
sorted when the function returns `true`, and `none` when it returns `false`;
the list holds the report made when the key evaluation throws. -/
def sort_payload (cfg : Config) (msg : Msg) : Option Msg × List Event :=
  match msg.payload with
  | .arr payload =>
    match arraySort (sortCompare (gen_comp cfg (elemKey cfg))) payload with
    | .error e => (none, [e])
    | .ok sorted => (some { msg with payload := .arr sorted }, [])
  | _ => (none, [])

/-- Lines 129-135: `check_parts`. -/
def check_parts (parts : Parts) : Bool :=
  parts.id.isSome && parts.index.isSome

/-- Line 148: `gid`, as the property key it is used as. -/
def Parts.gid (parts : Parts) : String := (parts.id.getD .undefined).toStr

/-- Lines 149-160: the group of `gid` after the message is pushed and the count
it declares, if any, is recorded. -/
def insertedGroup (pending : List (String × Group)) (parts : Parts) (msg : Msg) : Group :=
  let group := (lookupGroup parts.gid pending).getD { count := .undefined, msgs := [] }
  { count := match parts.count with
      | some c => c
      | none => group.count,
    msgs := group.msgs ++ [msg] }

/-- Line 162: the test `group.count === msgs.length`. -/
def isComplete (group : Group) : Bool :=
  JVal.strictEq group.count (JVal.int group.msgs.length)

/-- Lines 148-166: the insertion and, when it completes the group, the removal
and emission of the group, before the eviction check. -/
def insertStep (cfg : Config) (s : State) (parts : Parts) (msg : Msg) : State × List Event :=
  let gid := parts.gid
  let group := insertedGroup s.pending parts msg
  let pending := storeGroup gid group s.pending
  let pending_count := s.pending_count + 1
  if isComplete group then
    ({ pending := eraseGroup gid pending,
       pending_count := pending_count - (group.msgs.length : Int) },
     send_group cfg group)
  else
    ({ pending := pending, pending_count := pending_count }, [])

/-- Lines 167-172: the eviction check. -/
def evictStep (cfg : Config) (s : State) (msg : Msg) : State × List Event :=
  let max_msgs := max_kept_msgs_count cfg
  if max_msgs > 0 ∧ s.pending_count > (max_msgs : Int) then
    ({ pending := [], pending_count := 0 }, [.error "sort.too-many" (some msg)])
  else (s, [])

/-- Lines 137-173: `process_msg`. -/
def process_msg (cfg : Config) (s : State) (msg : Msg) : State × List Event :=
  match msg.parts with
  | none =>
    match sort_payload cfg msg with
    | (some sorted, evs) => (s, evs ++ [.send sorted])
    | (none, evs) => (s, evs)
  | some parts =>
    if check_parts parts then
      let r := insertStep cfg s parts msg
      let e := evictStep cfg r.1 msg
      (e.1, r.2 ++ e.2)
    else (s, [])

/-- The handler of `input` applied to a sequence of messages: the final state
and all the calls made. -/
def run (cfg : Config) : State → List Msg → State × List Event
  | s, [] => (s, [])
  | s, msg :: rest =>
    let r := process_msg cfg s msg
    let q := run cfg r.1 rest
    (q.1, r.2 ++ q.2)

/-- Lines 58-59: the state at instance start when the context store holds no
value for `pending`. -/
def State.empty : State := { pending := [], pending_count := 0 }

/-- Lines 58-59: the state at instance start when the context store returns
the value `pending`. -/
def State.start (pending : List (String × Group)) : State :=
  { pending := pending, pending_count := 0 }

/-! ## Notions the properties are stated with -/

/-- What the insertion sort establishes between an element `x` and its right
neighbour `y`, whatever the comparator: `comp x y` was not positive, or
`comp y x` was. -/
def Placed {α ε : Type} (comp : α → α → Except ε Int) (x y : α) : Prop :=
  (∃ c, comp x y = .ok c ∧ c ≤ 0) ∨ (∃ c, comp y x = .ok c ∧ 0 < c)


/-- The report `eval_jsonata` makes when the evaluation throws. -/
def invalidExp : Event := .error "sort.invalid-exp" none

/-- The report of the eviction (line 171). -/
def tooMany (msg : Msg) : Event := .error "sort.too-many" (some msg)

/-- The order the configuration asks between the keys of two neighbours, `kx`
the key of the left one: `conv kx <= conv ky` when the order is ascending and
`conv kx >= conv ky` otherwise. -/
def inOrder (cfg : Config) (kx ky : JVal) : Bool :=
  if cfg.order == "ascending" then JVal.le (conv cfg kx) (conv cfg ky)
  else JVal.ge (conv cfg kx) (conv cfg ky)

/-- The keys of `x` and of its right neighbour `y` evaluate and are in the
configured order. -/
def KeyOrdered {α : Type} (cfg : Config) (key : α → Except Event JVal) (x y : α) : Prop :=
  ∃ kx ky, key x = .ok kx ∧ key y = .ok ky ∧ inOrder cfg kx ky = true

/-- The keys of `xs` all evaluate, and after `conv` they are all numbers other
than `NaN` or they are all strings. -/
def Comparable {α : Type} (cfg : Config) (key : α → Except Event JVal) (xs : List α) : Prop :=
  (∀ x ∈ xs, ∃ k i, key x = .ok k ∧ conv cfg k = JVal.int i) ∨
    (∀ x ∈ xs, ∃ k s, key x = .ok k ∧ conv cfg k = .str s)

/-- A buffered message is in its place under the key `gid`: it has a `parts`
descriptor that passes `check_parts` and whose id is `gid`. -/
def memberOk (gid : String) (x : Msg) : Bool :=
  match x.parts with
  | some q => check_parts q && q.gid == gid
  | none => false

/-- Every buffered message is in its place: what holds of a `pending` that
`process_msg` filled. -/
def wfPending (pending : List (String × Group)) : Bool :=
  pending.all fun kg => kg.2.msgs.all (memberOk kg.1)

/-- The keys of `pending` are distinct, as the property names of an object
are. -/
def uniqueKeys (pending : List (String × Group)) : Prop :=
  (pending.map Prod.fst).Nodup

/-- The `parts.index` of a message, when it has one. -/
def Msg.index (x : Msg) : Option JVal := x.parts.bind Parts.index

/-- The descriptor `{id, index}` or `{id, index, count}` with a string id. -/
def partsOf (id : String) (index : Int) (count : Option Int) : Parts :=
  { id := some (.str id), index := some (JVal.int index), count := count.map JVal.int,
    extra := [] }

/-- The message `{payload, parts}` of a split sequence. -/
def partMsg (id : String) (index : Int) (count : Option Int) (payload : JVal) : Msg :=
  { payload := payload, parts := some (partsOf id index count), extra := [] }

/-- Ascending order on `msg.payload`, without coercion and without a cap. -/
def cfgPayload : Config :=
  { order := "ascending", as_num := false, key_exp := none, max_msgs := 0 }

/-- Ascending order on `msg.payload` as a number. -/
def cfgNumeric : Config :=
  { order := "ascending", as_num := true, key_exp := none, max_msgs := 0 }

/-- Ascending order on an expression whose evaluation always throws. -/
def cfgThrows : Config :=
  { order := "ascending", as_num := false, key_exp := some fun _ => none, max_msgs := 0 }

/-- Ascending order on the expression `payload`, which reads the property
`payload` of its input. -/
def cfgField : Config :=
  { order := "ascending", as_num := false, key_exp := some fun v => some (v.field "payload"),
    max_msgs := 0 }

/-- The number of members buffered under `gid`. -/
def groupSize (gid : String) (pending : List (String × Group)) : Int :=
  (((lookupGroup gid pending).getD { count := .undefined, msgs := [] }).msgs.length : Int)

/-- The invariant of the counter: the keys of `pending` are distinct and
`pending_count` is the number of messages buffered. -/
def Counted (s : State) : Prop :=
  uniqueKeys s.pending ∧ s.pending_count = total s.pending

/-- Ascending order on `msg.payload` with the cap `sortMaxKeptMsgsCount` set
to `cap`. -/
def cfgCap (cap : Nat) : Config :=
  { order := "ascending", as_num := false, key_exp := none, max_msgs := cap }

/-- A message with an array payload and no `parts`. -/
def arrayMsg (elems : List JVal) : Msg :=
  { payload := .arr elems, parts := none, extra := [] }

/-- The object `{"payload": v}`. -/
def payloadObj (v : JVal) : JVal := .obj [("payload", v)]

/-- The comparator on the keys themselves: `gen_comp` with the key function
`function(elem) { return elem; }` of line 113. -/
def keyComp (cfg : Config) (a b : JVal) : Except Event Int :=
  gen_comp cfg (fun k : JVal => .ok k) a b

/-- Descending order on `msg.payload`, without coercion. -/
def cfgDescending : Config :=
  { order := "descending", as_num := false, key_exp := none, max_msgs := 0 }

/-! ## The host's sort: permutation, order of neighbours, failure -/

theorem insertRev_perm {α ε : Type} (comp : α → α → Except ε Int) (e : α) :
    ∀ (rev r : List α), insertRev comp e rev = .ok r → List.Perm r (e :: rev) := by
  intro rev
  induction rev with
  | nil =>
    intro r h
    simp only [insertRev, Except.ok.injEq] at h
    subst h
    exact List.Perm.refl _
  | cons tmp rest ih =>
    intro r h
    simp only [insertRev] at h
    split at h
    · exact absurd h (by simp)
    · split at h
      · split at h
        · exact absurd h (by simp)
        · rename_i r1 hr1
          simp only [Except.ok.injEq] at h
          subst h
          exact ((ih r1 hr1).cons tmp).trans (List.Perm.swap e tmp rest)
      · simp only [Except.ok.injEq] at h
        subst h
        exact List.Perm.refl _

theorem sortLoop_perm {α ε : Type} (comp : α → α → Except ε Int) :
    ∀ (xs rev r : List α), sortLoop comp rev xs = .ok r → List.Perm r (rev.reverse ++ xs) := by
  intro xs
  induction xs with
  | nil =>
    intro rev r h
    simp only [sortLoop, Except.ok.injEq] at h
    subst h
    simp
  | cons e rest ih =>
    intro rev r h
    simp only [sortLoop] at h
    split at h
    · exact absurd h (by simp)
    · rename_i rev1 h1
      have p1 := insertRev_perm comp e rev rev1 h1
      have p2 := ih rev1 r h
      refine p2.trans ?_
      have p3 : List.Perm rev1.reverse (rev.reverse ++ [e]) := by
        refine (List.reverse_perm rev1).trans (p1.trans ?_)
        refine List.Perm.trans ?_ (List.perm_append_comm)
        exact (List.reverse_perm rev).symm.cons e
      simpa using p3.append_right rest

theorem arraySort_perm {α ε : Type} (comp : α → α → Except ε Int) (xs r : List α)
    (h : arraySort comp xs = .ok r) : List.Perm r xs := by
  simpa using sortLoop_perm comp xs [] r h

theorem insertRev_chain {α ε : Type} (comp : α → α → Except ε Int) (e : α) :
    ∀ (rev r : List α), List.Chain' (fun a b => Placed comp b a) rev →
      insertRev comp e rev = .ok r →
      List.Chain' (fun a b => Placed comp b a) r ∧
        (∀ h ∈ r.head?, h = e ∨ h ∈ rev.head?) := by
  intro rev
  induction rev with
  | nil =>
    intro r _ h
    simp only [insertRev, Except.ok.injEq] at h
    subst h
    simp
  | cons tmp rest ih =>
    intro r hc h
    simp only [insertRev] at h
    split at h
    · exact absurd h (by simp)
    · rename_i order hord
      split at h
      · rename_i hpos
        split at h
        · exact absurd h (by simp)
        · rename_i r1 hr1
          simp only [Except.ok.injEq] at h
          subst h
          obtain ⟨c1, hd1⟩ := ih r1 (List.Chain'.tail hc) hr1
          refine ⟨?_, by simp⟩
          rw [List.chain'_cons']
          refine ⟨?_, c1⟩
          intro y hy
          rcases hd1 y hy with rfl | hy2
          · exact Or.inr ⟨order, hord, hpos⟩
          · exact (List.chain'_cons'.1 hc).1 y hy2
      · rename_i hpos
        simp only [Except.ok.injEq] at h
        subst h
        refine ⟨?_, by simp⟩
        rw [List.chain'_cons']
        refine ⟨?_, hc⟩
        intro y hy
        simp only [List.head?_cons, Option.mem_def, Option.some.injEq] at hy
        subst hy
        exact Or.inl ⟨order, hord, not_lt.1 hpos⟩

theorem sortLoop_chain {α ε : Type} (comp : α → α → Except ε Int) :
    ∀ (xs rev r : List α), List.Chain' (fun a b => Placed comp b a) rev →
      sortLoop comp rev xs = .ok r → List.Chain' (Placed comp) r := by
  intro xs
  induction xs with
  | nil =>
    intro rev r hc h
    simp only [sortLoop, Except.ok.injEq] at h
    subst h
    rw [List.chain'_reverse]
    exact hc
  | cons e rest ih =>
    intro rev r hc h
    simp only [sortLoop] at h
    split at h
    · exact absurd h (by simp)
    · rename_i rev1 h1
      exact ih rev1 r (insertRev_chain comp e rev rev1 hc h1).1 h

theorem arraySort_chain {α ε : Type} (comp : α → α → Except ε Int) (xs r : List α)
    (h : arraySort comp xs = .ok r) : List.Chain' (Placed comp) r :=
  sortLoop_chain comp xs [] r List.chain'_nil h

/-! ## The comparator on keys that can be compared -/

theorem relLt_int (a b : Int) : JVal.relLt (JVal.int a) (JVal.int b) = some (decide (a < b)) := by
  simp [JVal.relLt, JVal.int, JVal.toPrimitive, JVal.toNumber]

theorem relLt_str (a b : String) :
    JVal.relLt (.str a) (.str b) = some (decide (a < b)) := by
  simp [JVal.relLt, JVal.toPrimitive, String.lt_iff_toList_lt]

theorem strictEq_int (a b : Int) : JVal.strictEq (JVal.int a) (JVal.int b) = (a == b) := by
  simp [JVal.strictEq, JVal.int]

theorem strictEq_str (a b : String) : JVal.strictEq (.str a) (.str b) = (a == b) := by
  simp [JVal.strictEq]

theorem dir_cases (cfg : Config) :
    (dir cfg = 1 ∧ (cfg.order == "ascending") = true) ∨
      (dir cfg = -1 ∧ (cfg.order == "ascending") = false) := by
  unfold dir
  cases h : (cfg.order == "ascending") <;> simp

theorem gen_comp_ok {α : Type} (cfg : Config) (key : α → Except Event JVal) (x y : α)
    (kx ky : JVal) (hx : key x = .ok kx) (hy : key y = .ok ky) :
    gen_comp cfg key x y =
      .ok (if JVal.strictEq (conv cfg kx) (conv cfg ky) then 0
        else if JVal.gt (conv cfg kx) (conv cfg ky) then dir cfg else -(dir cfg)) := by
  simp only [gen_comp, hx, hy]
  split_ifs <;> rfl

/-- The comparator on a linear order: what a non-positive `comp x y`, or a
positive `comp y x`, says of the two keys. -/
theorem placed_linear {β : Type} [LinearOrder β] [∀ a b : β, Decidable (a = b)]
    [∀ a b : β, Decidable (a < b)] (d : Int) (hd : d = 1 ∨ d = -1) (a b : β)
    (h : (if a = b then (0 : Int) else if b < a then d else -d) ≤ 0 ∨
      0 < (if b = a then (0 : Int) else if a < b then d else -d)) :
    if d = 1 then ¬ b < a else ¬ a < b := by
  rcases hd with rfl | rfl
  · simp only [if_true]
    intro hlt
    have hne : a ≠ b := ne_of_gt hlt
    have hne2 : b ≠ a := Ne.symm hne
    have hnl : ¬ a < b := not_lt_of_gt hlt
    simp [hne, hne2, hlt, hnl] at h
  · have h1 : ¬ ((-1 : Int) = 1) := by decide
    simp only [h1, if_false]
    intro hlt
    have hne : a ≠ b := ne_of_lt hlt
    have hne2 : b ≠ a := Ne.symm hne
    have hnl : ¬ b < a := not_lt_of_gt hlt
    simp [hne, hne2, hlt, hnl] at h

theorem placed_ordered {α : Type} (cfg : Config) (key : α → Except Event JVal) (xs : List α)
    (hc : Comparable cfg key xs) (x y : α) (hx : x ∈ xs) (hy : y ∈ xs)
    (hp : Placed (gen_comp cfg key) x y) : KeyOrdered cfg key x y := by
  rcases hc with hc | hc
  · obtain ⟨kx, i, hkx, hi⟩ := hc x hx
    obtain ⟨ky, j, hky, hj⟩ := hc y hy
    refine ⟨kx, ky, hkx, hky, ?_⟩
    have key1 := placed_linear (dir cfg) ((dir_cases cfg).imp (·.1) (·.1)) i j
    unfold Placed at hp
    rw [gen_comp_ok cfg key x y kx ky hkx hky, gen_comp_ok cfg key y x ky kx hky hkx] at hp
    simp only [hi, hj, strictEq_int, JVal.gt, relLt_int, Except.ok.injEq, exists_eq_left',
      beq_iff_eq, Option.some.injEq, decide_eq_true_eq] at hp
    have := key1 hp
    unfold inOrder
    rcases dir_cases cfg with ⟨hd, ho⟩ | ⟨hd, ho⟩
    · simp [hd] at this
      simp [ho, hi, hj, JVal.le, relLt_int, this]
    · simp [hd] at this
      simp [ho, hi, hj, JVal.ge, relLt_int, this]
  · obtain ⟨kx, i, hkx, hi⟩ := hc x hx
    obtain ⟨ky, j, hky, hj⟩ := hc y hy
    refine ⟨kx, ky, hkx, hky, ?_⟩
    have key1 := placed_linear (dir cfg) ((dir_cases cfg).imp (·.1) (·.1)) i j
    unfold Placed at hp
    rw [gen_comp_ok cfg key x y kx ky hkx hky, gen_comp_ok cfg key y x ky kx hky hkx] at hp
    simp only [hi, hj, strictEq_str, JVal.gt, relLt_str, Except.ok.injEq, exists_eq_left',
      beq_iff_eq, Option.some.injEq, decide_eq_true_eq] at hp
    have := key1 hp
    unfold inOrder
    rcases dir_cases cfg with ⟨hd, ho⟩ | ⟨hd, ho⟩
    · simp [hd] at this
      simp [ho, hi, hj, JVal.le, relLt_str, this]
    · simp [hd] at this
      simp [ho, hi, hj, JVal.ge, relLt_str, this]

theorem comparable_total {α : Type} (cfg : Config) (key : α → Except Event JVal) (xs : List α)
    (hc : Comparable cfg key xs) (x y : α) (hx : x ∈ xs) (hy : y ∈ xs) :
    ∃ c, gen_comp cfg key x y = .ok c := by
  have hk : ∀ z ∈ xs, ∃ k, key z = .ok k := by
    intro z hz
    rcases hc with hc | hc
    · obtain ⟨k, _, hk, _⟩ := hc z hz
      exact ⟨k, hk⟩
    · obtain ⟨k, _, hk, _⟩ := hc z hz
      exact ⟨k, hk⟩
  obtain ⟨kx, hkx⟩ := hk x hx
  obtain ⟨ky, hky⟩ := hk y hy
  exact ⟨_, gen_comp_ok cfg key x y kx ky hkx hky⟩

/-! ## When the sort returns and when it throws -/

theorem insertRev_succeeds {α ε : Type} (comp : α → α → Except ε Int) (P : α → Prop)
    (hP : ∀ x y, P x → P y → ∃ c, comp x y = .ok c) (e : α) (he : P e) :
    ∀ rev : List α, (∀ x ∈ rev, P x) → ∃ r, insertRev comp e rev = .ok r := by
  intro rev
  induction rev with
  | nil => intro _; exact ⟨[e], rfl⟩
  | cons tmp rest ih =>
    intro hrev
    obtain ⟨c, hc⟩ := hP tmp e (hrev tmp (List.mem_cons_self _ _)) he
    obtain ⟨r1, hr1⟩ := ih (fun x hx => hrev x (List.mem_cons_of_mem _ hx))
    simp only [insertRev, hc, hr1]
    split_ifs
    · exact ⟨_, rfl⟩
    · exact ⟨_, rfl⟩

theorem sortLoop_succeeds {α ε : Type} (comp : α → α → Except ε Int) (P : α → Prop)
    (hP : ∀ x y, P x → P y → ∃ c, comp x y = .ok c) :
    ∀ xs rev : List α, (∀ x ∈ rev, P x) → (∀ x ∈ xs, P x) →
      ∃ r, sortLoop comp rev xs = .ok r := by
  intro xs
  induction xs with
  | nil => intro rev _ _; exact ⟨_, rfl⟩
  | cons e rest ih =>
    intro rev hrev hxs
    obtain ⟨rev1, h1⟩ :=
      insertRev_succeeds comp P hP e (hxs e (List.mem_cons_self _ _)) rev hrev
    have hrev1 : ∀ x ∈ rev1, P x := by
      intro x hx
      have hx2 := (insertRev_perm comp e rev rev1 h1).subset hx
      rcases List.mem_cons.1 hx2 with rfl | hx3
      · exact hxs x (List.mem_cons_self _ _)
      · exact hrev x hx3
    obtain ⟨r, hr⟩ := ih rev1 hrev1 (fun x hx => hxs x (List.mem_cons_of_mem _ hx))
    refine ⟨r, ?_⟩
    simp only [sortLoop, h1]
    exact hr

theorem arraySort_succeeds {α ε : Type} (comp : α → α → Except ε Int) (xs : List α)
    (hP : ∀ x y, x ∈ xs → y ∈ xs → ∃ c, comp x y = .ok c) :
    ∃ r, arraySort comp xs = .ok r :=
  sortLoop_succeeds comp (fun x => x ∈ xs) hP xs [] (by simp) (fun _ hx => hx)

theorem insertRev_error {α ε : Type} (comp : α → α → Except ε Int) (e : α) :
    ∀ (rev : List α) (err : ε), insertRev comp e rev = .error err →
      ∃ x y, comp x y = .error err := by
  intro rev
  induction rev with
  | nil => intro err h; simp [insertRev] at h
  | cons tmp rest ih =>
    intro err h
    simp only [insertRev] at h
    split at h
    · rename_i e1 h1
      simp only [Except.error.injEq] at h
      subst h
      exact ⟨tmp, e, h1⟩
    · split at h
      · split at h
        · rename_i e1 h1
          simp only [Except.error.injEq] at h
          subst h
          exact ih _ h1
        · exact absurd h (by simp)
      · exact absurd h (by simp)

theorem sortLoop_error {α ε : Type} (comp : α → α → Except ε Int) :
    ∀ (xs rev : List α) (err : ε), sortLoop comp rev xs = .error err →
      ∃ x y, comp x y = .error err := by
  intro xs
  induction xs with
  | nil => intro rev err h; simp [sortLoop] at h
  | cons e rest ih =>
    intro rev err h
    simp only [sortLoop] at h
    split at h
    · rename_i e1 h1
      simp only [Except.error.injEq] at h
      subst h
      exact insertRev_error comp e rev _ h1
    · exact ih _ _ h

/-- The sort of two elements or more throws when the comparator throws the
exception `e0`, and no other, on every pair with a bad element, and a bad
element is in the array. -/
theorem sortLoop_throws {α ε : Type} (comp : α → α → Except ε Int) (Bad : α → Prop) (e0 : ε)
    (hbad : ∀ x y, Bad x ∨ Bad y → comp x y = .error e0)
    (hall : ∀ x y err, comp x y = .error err → err = e0) :
    ∀ (xs rev : List α), rev ≠ [] → (∃ x ∈ xs, Bad x) → sortLoop comp rev xs = .error e0 := by
  intro xs
  induction xs with
  | nil => intro rev _ h; simp at h
  | cons e rest ih =>
    intro rev hne hx
    cases rev with
    | nil => exact absurd rfl hne
    | cons tmp rv =>
      by_cases hbe : Bad e
      · simp [sortLoop, insertRev, hbad tmp e (Or.inr hbe)]
      · have hrest : ∃ x ∈ rest, Bad x := by
          obtain ⟨x, hx1, hx2⟩ := hx
          rcases List.mem_cons.1 hx1 with rfl | h3
          · exact absurd hx2 hbe
          · exact ⟨x, h3, hx2⟩
        simp only [sortLoop]
        split
        · rename_i e1 h1
          obtain ⟨x, y, hxy⟩ := insertRev_error comp e _ _ h1
          rw [hall x y e1 hxy]
        · rename_i rev1 h1
          have hlen := (insertRev_perm comp e _ rev1 h1).length_eq
          have hne1 : rev1 ≠ [] := by
            intro h0
            subst h0
            simp at hlen
          exact ih rev1 hne1 hrest

theorem arraySort_throws {α ε : Type} (comp : α → α → Except ε Int) (Bad : α → Prop) (e0 : ε)
    (hbad : ∀ x y, Bad x ∨ Bad y → comp x y = .error e0)
    (hall : ∀ x y err, comp x y = .error err → err = e0)
    (xs : List α) (hlen : 2 ≤ xs.length) (hx : ∃ x ∈ xs, Bad x) :
    arraySort comp xs = .error e0 := by
  match xs, hlen, hx with
  | a :: b :: rest, _, hx =>
    by_cases hba : Bad a
    · simp [arraySort, sortLoop, insertRev, hbad a b (Or.inl hba)]
    · have hrest : ∃ x ∈ b :: rest, Bad x := by
        obtain ⟨x, hx1, hx2⟩ := hx
        rcases List.mem_cons.1 hx1 with rfl | h3
        · exact absurd hx2 hba
        · exact ⟨x, h3, hx2⟩
      have h := sortLoop_throws comp Bad e0 hbad hall (b :: rest) [a] (by simp) hrest
      simpa [arraySort, sortLoop, insertRev] using h

theorem arraySort_error {α ε : Type} (comp : α → α → Except ε Int) (xs : List α) (err : ε)
    (h : arraySort comp xs = .error err) : ∃ x y, comp x y = .error err :=
  sortLoop_error comp xs [] err h

theorem eval_jsonata_error (code : JVal → Option JVal) (val : JVal) (e : Event)
    (h : eval_jsonata code val = .error e) : e = invalidExp := by
  unfold eval_jsonata at h
  split at h
  · exact absurd h (by simp)
  · simp only [Except.error.injEq] at h
    exact h.symm

theorem msgKey_error (cfg : Config) (m : Msg) (e : Event) (h : msgKey cfg m = .error e) :
    e = invalidExp := by
  unfold msgKey at h
  split at h
  · exact absurd h (by simp)
  · exact eval_jsonata_error _ _ e h

theorem elemKey_error (cfg : Config) (v : JVal) (e : Event) (h : elemKey cfg v = .error e) :
    e = invalidExp := by
  unfold elemKey at h
  split at h
  · exact absurd h (by simp)
  · exact eval_jsonata_error _ _ e h

theorem gen_comp_error {α : Type} (cfg : Config) (key : α → Except Event JVal)
    (hkey : ∀ x e, key x = .error e → e = invalidExp) (x y : α) (e : Event)
    (h : gen_comp cfg key x y = .error e) : e = invalidExp := by
  unfold gen_comp at h
  split at h
  · rename_i e1 h1
    simp only [Except.error.injEq] at h
    subst h
    exact hkey x _ h1
  · split at h
    · rename_i e1 h1
      simp only [Except.error.injEq] at h
      subst h
      exact hkey y _ h1
    · simp only at h
      split_ifs at h

theorem gen_comp_bad {α : Type} (cfg : Config) (key : α → Except Event JVal)
    (hkey : ∀ x e, key x = .error e → e = invalidExp) (x y : α)
    (h : (∃ e, key x = .error e) ∨ (∃ e, key y = .error e)) :
    gen_comp cfg key x y = .error invalidExp := by
  unfold gen_comp
  rcases h with ⟨e, he⟩ | ⟨e, he⟩
  · rw [he, hkey x e he]
  · cases hx : key x with
    | error e1 => rw [hkey x e1 hx]
    | ok kx => simp only [he, hkey y e he]

/-! ## The calls of `process_msg` -/

theorem sent_append (a b : List Event) : sent (a ++ b) = sent a ++ sent b := by
  induction a with
  | nil => rfl
  | cons e r ih => cases e <;> simp [sent, ih]

theorem sent_evictStep (cfg : Config) (s : State) (m : Msg) : sent (evictStep cfg s m).2 = [] := by
  unfold evictStep
  simp only
  split_ifs <;> rfl

theorem process_msg_valid (cfg : Config) (s : State) (m : Msg) (p : Parts)
    (hp : m.parts = some p) (hc : check_parts p = true) :
    process_msg cfg s m =
      ((evictStep cfg (insertStep cfg s p m).1 m).1,
        (insertStep cfg s p m).2 ++ (evictStep cfg (insertStep cfg s p m).1 m).2) := by
  simp [process_msg, hp, hc]

theorem insertStep_events (cfg : Config) (s : State) (p : Parts) (m : Msg) :
    (insertStep cfg s p m).2 =
      if isComplete (insertedGroup s.pending p m) then
        send_group cfg (insertedGroup s.pending p m) else [] := by
  unfold insertStep
  simp only
  split_ifs <;> rfl

theorem sent_process_valid (cfg : Config) (s : State) (m : Msg) (p : Parts)
    (hp : m.parts = some p) (hc : check_parts p = true) :
    sent (process_msg cfg s m).2 =
      if isComplete (insertedGroup s.pending p m) then
        sent (send_group cfg (insertedGroup s.pending p m)) else [] := by
  rw [process_msg_valid cfg s m p hp hc]
  simp only [sent_append, sent_evictStep, List.append_nil, insertStep_events]
  split_ifs <;> rfl

theorem dropIndex_setIndex (x : Msg) (i : Nat) : (x.setIndex i).dropIndex = x.dropIndex := by
  cases x with
  | mk payload parts extra => cases parts <;> rfl

theorem sent_sendFrom_length : ∀ (ms : List Msg) (i : Nat), (sent (sendFrom i ms)).length = ms.length
  | [], _ => rfl
  | _ :: r, i => by simp [sendFrom, sent, sent_sendFrom_length r (i + 1)]

theorem sent_sendFrom_dropIndex :
    ∀ (ms : List Msg) (i : Nat), (sent (sendFrom i ms)).map Msg.dropIndex = ms.map Msg.dropIndex
  | [], _ => rfl
  | x :: r, i => by
    simp [sendFrom, sent, sent_sendFrom_dropIndex r (i + 1), dropIndex_setIndex]

theorem sent_sendFrom_index :
    ∀ (ms : List Msg) (i : Nat), (∀ x ∈ ms, x.parts.isSome = true) →
      (sent (sendFrom i ms)).map Msg.index =
        (List.range' i ms.length).map fun n => some (JVal.int n)
  | [], _, _ => rfl
  | x :: r, i, h => by
    have hx := h x (List.mem_cons_self _ _)
    have ih := sent_sendFrom_index r (i + 1) (fun y hy => h y (List.mem_cons_of_mem _ hy))
    simp only [sendFrom, sent, List.map_cons, ih, List.length_cons, List.range'_succ]
    congr 1
    cases x with
    | mk payload parts extra =>
      cases parts with
      | none => simp at hx
      | some q => rfl

theorem sendFrom_chain (R : Msg → Msg → Prop)
    (hR : ∀ x y i j, R x y → R (x.setIndex i) (y.setIndex j)) :
    ∀ (ms : List Msg) (i : Nat), List.Chain' R ms → List.Chain' R (sent (sendFrom i ms))
  | [], _, _ => List.chain'_nil
  | [x], _, _ => by simp [sendFrom, sent]
  | x :: y :: r, i, h => by
    have h2 := List.chain'_cons.1 h
    have ih := sendFrom_chain R hR (y :: r) (i + 1) h2.2
    simp only [sendFrom, sent] at ih ⊢
    exact List.chain'_cons.2 ⟨hR x y i (i + 1) h2.1, ih⟩

theorem strictEq_int_right (x : JVal) (n : Int) (h : JVal.strictEq x (JVal.int n) = true) :
    x = JVal.int n := by
  cases x with
  | num v =>
    cases v with
    | nan => simp [JVal.strictEq, JVal.int] at h
    | fin i =>
      simp only [JVal.strictEq, JVal.int, beq_iff_eq] at h
      rw [h]
      rfl
  | _ => simp [JVal.strictEq, JVal.int] at h

theorem insertedGroup_msgs (pending : List (String × Group)) (p : Parts) (m : Msg) :
    (insertedGroup pending p m).msgs =
      ((lookupGroup p.gid pending).getD { count := .undefined, msgs := [] }).msgs ++ [m] := rfl

theorem payloadKey_total (cfg : Config) (h : cfg.key_exp = none) (ms : List Msg) :
    ∃ r, arraySort (gen_comp cfg (msgKey cfg)) ms = .ok r := by
  apply arraySort_succeeds
  intro x y _ _
  exact ⟨_, gen_comp_ok cfg (msgKey cfg) x y x.payload y.payload (by simp [msgKey, h])
    (by simp [msgKey, h])⟩

/-! ## Buffered messages are in their place -/

theorem wf_lookup (gid : String) :
    ∀ (pending : List (String × Group)) (g : Group), wfPending pending = true →
      lookupGroup gid pending = some g → ∀ x ∈ g.msgs, memberOk gid x = true := by
  intro pending
  induction pending with
  | nil => intro g _ h; simp [lookupGroup] at h
  | cons kg r ih =>
    intro g hwf h x hx
    obtain ⟨k, g1⟩ := kg
    simp only [wfPending, List.all_cons, Bool.and_eq_true, List.all_eq_true] at hwf
    simp only [lookupGroup] at h
    split_ifs at h with hk
    · simp only [Option.some.injEq] at h
      subst h
      have hk2 : k = gid := by simpa using hk
      subst hk2
      exact hwf.1 x hx
    · refine ih g ?_ h x hx
      simp only [wfPending, List.all_eq_true]
      exact hwf.2

theorem insertedGroup_memberOk (pending : List (String × Group)) (p : Parts) (m : Msg)
    (hwf : wfPending pending = true) (hp : m.parts = some p) (hc : check_parts p = true) :
    ∀ x ∈ (insertedGroup pending p m).msgs, memberOk p.gid x = true := by
  intro x hx
  rw [insertedGroup_msgs] at hx
  rcases List.mem_append.1 hx with h1 | h1
  · cases hl : lookupGroup p.gid pending with
    | none => simp [hl] at h1
    | some g =>
      rw [hl] at h1
      exact wf_lookup p.gid pending g hwf hl x h1
  · simp only [List.mem_singleton] at h1
    subst h1
    simp [memberOk, hp, hc]

theorem memberOk_parts (gid : String) (x : Msg) (h : memberOk gid x = true) :
    x.parts.isSome = true := by
  unfold memberOk at h
  cases hx : x.parts with
  | none => simp [hx] at h
  | some q => rfl

/-! ## The dictionary `pending` -/

theorem lookup_erase_self (gid : String) :
    ∀ pending : List (String × Group), lookupGroup gid (eraseGroup gid pending) = none := by
  intro pending
  induction pending with
  | nil => rfl
  | cons kg r ih =>
    obtain ⟨k, g⟩ := kg
    simp only [eraseGroup]
    split_ifs with hk
    · exact ih
    · simp [lookupGroup, hk, ih]

theorem lookup_erase_ne (gid h : String) (hne : h ≠ gid) :
    ∀ pending : List (String × Group),
      lookupGroup h (eraseGroup gid pending) = lookupGroup h pending := by
  intro pending
  induction pending with
  | nil => rfl
  | cons kg r ih =>
    obtain ⟨k, g⟩ := kg
    simp only [eraseGroup]
    split_ifs with hk
    · have hk2 : k = gid := by simpa using hk
      have hk3 : (k == h) = false := by
        simp only [beq_eq_false_iff_ne, ne_eq]
        intro h0
        exact hne (h0.symm.trans hk2)
      simp [lookupGroup, hk3, ih]
    · simp only [lookupGroup, ih]

theorem lookup_store_self (gid : String) (g : Group) (pending : List (String × Group)) :
    lookupGroup gid (storeGroup gid g pending) = some g := by
  simp [storeGroup, lookupGroup]

theorem lookup_store_ne (gid h : String) (hne : h ≠ gid) (g : Group)
    (pending : List (String × Group)) :
    lookupGroup h (storeGroup gid g pending) = lookupGroup h pending := by
  have hk : (gid == h) = false := by
    simp only [beq_eq_false_iff_ne, ne_eq]
    exact fun h0 => hne h0.symm
  simp [storeGroup, lookupGroup, hk, lookup_erase_ne gid h hne]

theorem erase_keys_subset (gid : String) :
    ∀ (pending : List (String × Group)) (k : String),
      k ∈ (eraseGroup gid pending).map Prod.fst → k ∈ pending.map Prod.fst ∧ k ≠ gid := by
  intro pending
  induction pending with
  | nil => intro k h; simp [eraseGroup] at h
  | cons kg r ih =>
    intro k h
    obtain ⟨k1, g⟩ := kg
    simp only [eraseGroup] at h
    split_ifs at h with hk
    · have := ih k h
      exact ⟨List.mem_cons_of_mem _ this.1, this.2⟩
    · simp only [List.map_cons, List.mem_cons] at h
      rcases h with rfl | h
      · refine ⟨by simp, ?_⟩
        simpa using hk
      · have := ih k h
        exact ⟨List.mem_cons_of_mem _ this.1, this.2⟩

theorem uniqueKeys_erase (gid : String) :
    ∀ pending : List (String × Group), uniqueKeys pending →
      uniqueKeys (eraseGroup gid pending) := by
  intro pending
  induction pending with
  | nil => intro h; exact h
  | cons kg r ih =>
    intro h
    obtain ⟨k, g⟩ := kg
    simp only [uniqueKeys, List.map_cons, List.nodup_cons] at h
    simp only [eraseGroup]
    split_ifs with hk
    · exact ih h.2
    · simp only [uniqueKeys, List.map_cons, List.nodup_cons]
      exact ⟨fun hmem => h.1 (erase_keys_subset gid r k hmem).1, ih h.2⟩

theorem uniqueKeys_store (gid : String) (g : Group) (pending : List (String × Group))
    (h : uniqueKeys pending) : uniqueKeys (storeGroup gid g pending) := by
  simp only [uniqueKeys, storeGroup, List.map_cons, List.nodup_cons]
  exact ⟨fun hmem => (erase_keys_subset gid pending gid hmem).2 rfl, uniqueKeys_erase gid pending h⟩

theorem lookup_none_of_not_mem (gid : String) :
    ∀ pending : List (String × Group), gid ∉ pending.map Prod.fst →
      lookupGroup gid pending = none := by
  intro pending
  induction pending with
  | nil => intro _; rfl
  | cons kg r ih =>
    intro h
    obtain ⟨k, g⟩ := kg
    simp only [List.map_cons, List.mem_cons, not_or] at h
    have hk : (k == gid) = false := by
      simp only [beq_eq_false_iff_ne, ne_eq]
      exact fun h0 => h.1 h0.symm
    simp [lookupGroup, hk, ih h.2]

theorem erase_of_not_mem (gid : String) :
    ∀ pending : List (String × Group), gid ∉ pending.map Prod.fst →
      eraseGroup gid pending = pending := by
  intro pending
  induction pending with
  | nil => intro _; rfl
  | cons kg r ih =>
    intro h
    obtain ⟨k, g⟩ := kg
    simp only [List.map_cons, List.mem_cons, not_or] at h
    have hk : (k == gid) = false := by
      simp only [beq_eq_false_iff_ne, ne_eq]
      exact fun h0 => h.1 h0.symm
    simp [eraseGroup, hk, ih h.2]

theorem total_erase (gid : String) :
    ∀ pending : List (String × Group), uniqueKeys pending →
      total pending = total (eraseGroup gid pending) + groupSize gid pending := by
  intro pending
  induction pending with
  | nil => intro _; simp [total, eraseGroup, groupSize, lookupGroup]
  | cons kg r ih =>
    intro h
    obtain ⟨k, g⟩ := kg
    simp only [uniqueKeys, List.map_cons, List.nodup_cons] at h
    by_cases hk : (k == gid) = true
    · have hk2 : k = gid := by simpa using hk
      subst hk2
      simp only [eraseGroup, hk, if_true, total, groupSize, lookupGroup, Option.getD_some]
      rw [erase_of_not_mem k r h.1]
      ring
    · have hk3 : (k == gid) = false := by simpa using hk
      have := ih h.2
      simp only [groupSize] at this
      simp only [eraseGroup, hk3, total, groupSize, lookupGroup, this]
      simp
      ring

theorem erase_store (gid : String) (g : Group) (pending : List (String × Group)) :
    eraseGroup gid (storeGroup gid g pending) = eraseGroup gid pending := by
  have h1 : gid ∉ (eraseGroup gid pending).map Prod.fst :=
    fun hmem => (erase_keys_subset gid pending gid hmem).2 rfl
  simp [storeGroup, eraseGroup, erase_of_not_mem gid _ h1]

theorem insertedGroup_length (pending : List (String × Group)) (p : Parts) (m : Msg) :
    ((insertedGroup pending p m).msgs.length : Int) = groupSize p.gid pending + 1 := by
  simp [insertedGroup_msgs, groupSize]

/-! ## The counter `pending_count` -/

theorem insertStep_counted (cfg : Config) (s : State) (p : Parts) (m : Msg) (h : Counted s) :
    Counted (insertStep cfg s p m).1 := by
  obtain ⟨hu, hcount⟩ := h
  have ht := total_erase p.gid s.pending hu
  have hl := insertedGroup_length s.pending p m
  unfold insertStep
  simp only
  split_ifs with hcomp
  · refine ⟨?_, ?_⟩
    · simp only [erase_store]
      exact uniqueKeys_erase _ _ hu
    · simp only [erase_store]
      omega
  · refine ⟨uniqueKeys_store _ _ _ hu, ?_⟩
    simp only [storeGroup, total]
    omega

theorem evictStep_counted (cfg : Config) (s : State) (m : Msg) (h : Counted s) :
    Counted (evictStep cfg s m).1 := by
  unfold evictStep
  simp only
  split_ifs
  · exact ⟨List.nodup_nil, rfl⟩
  · exact h

theorem process_msg_state (cfg : Config) (s : State) (m : Msg) :
    (process_msg cfg s m).1 = s ∨
      ∃ p, m.parts = some p ∧ check_parts p = true ∧
        (process_msg cfg s m).1 = (evictStep cfg (insertStep cfg s p m).1 m).1 := by
  cases hp : m.parts with
  | none =>
    left
    simp only [process_msg, hp]
    split <;> rfl
  | some p =>
    by_cases hc : check_parts p = true
    · right
      exact ⟨p, rfl, hc, by rw [process_msg_valid cfg s m p hp hc]⟩
    · left
      simp [process_msg, hp, hc]

theorem process_msg_counted (cfg : Config) (s : State) (m : Msg) (h : Counted s) :
    Counted (process_msg cfg s m).1 := by
  rcases process_msg_state cfg s m with h1 | ⟨p, _, _, h1⟩
  · rw [h1]; exact h
  · rw [h1]; exact evictStep_counted cfg _ m (insertStep_counted cfg s p m h)

theorem run_counted (cfg : Config) :
    ∀ (ms : List Msg) (s : State), Counted s → Counted (run cfg s ms).1 := by
  intro ms
  induction ms with
  | nil => intro s h; exact h
  | cons m r ih => intro s h; exact ih _ (process_msg_counted cfg s m h)

theorem evictStep_bound (cfg : Config) (s : State) (m : Msg) (hT : 0 < cfg.max_msgs) :
    (evictStep cfg s m).1.pending_count ≤ (cfg.max_msgs : Int) := by
  unfold evictStep max_kept_msgs_count
  simp only
  split_ifs with h
  · simp
  · simp only [gt_iff_lt, not_and, not_lt] at h
    exact h hT

theorem run_bound (cfg : Config) (hT : 0 < cfg.max_msgs) :
    ∀ (ms : List Msg) (s : State), s.pending_count ≤ (cfg.max_msgs : Int) →
      (run cfg s ms).1.pending_count ≤ (cfg.max_msgs : Int) := by
  intro ms
  induction ms with
  | nil => intro s h; exact h
  | cons m r ih =>
    intro s h
    refine ih _ ?_
    rcases process_msg_state cfg s m with h1 | ⟨p, _, _, h1⟩
    · rw [h1]; exact h
    · rw [h1]; exact evictStep_bound cfg _ m hT

/-! ## The reports -/

theorem sendFrom_isSend : ∀ (ms : List Msg) (i : Nat), ∀ e ∈ sendFrom i ms, e.isSend = true
  | [], _, e, h => by simp [sendFrom] at h
  | x :: r, i, e, h => by
    simp only [sendFrom, List.mem_cons] at h
    rcases h with rfl | h
    · rfl
    · exact sendFrom_isSend r (i + 1) e h

theorem send_group_events (cfg : Config) (g : Group) :
    ∀ e ∈ send_group cfg g, e.isSend = true ∨ e = invalidExp := by
  intro e he
  unfold send_group at he
  split at he
  · rename_i e1 h1
    simp only [List.mem_singleton] at he
    subst he
    right
    obtain ⟨x, y, hxy⟩ := arraySort_error _ _ _ h1
    exact gen_comp_error cfg (msgKey cfg) (msgKey_error cfg) x y _ hxy
  · left
    exact sendFrom_isSend _ 0 e he

theorem insertStep_no_tooMany (cfg : Config) (s : State) (p : Parts) (m m0 : Msg) :
    tooMany m0 ∉ (insertStep cfg s p m).2 := by
  rw [insertStep_events]
  split_ifs
  · intro h
    rcases send_group_events cfg _ _ h with h1 | h1
    · simp [tooMany, Event.isSend] at h1
    · simp [tooMany, invalidExp] at h1
  · simp

theorem sortCompare_error (comp : JVal → JVal → Except Event Int)
    (hcomp : ∀ x y e, comp x y = .error e → e = invalidExp) (x y : JVal) (e : Event)
    (h : sortCompare comp x y = .error e) : e = invalidExp := by
  unfold sortCompare at h
  split_ifs at h
  exact hcomp x y e h

theorem sort_payload_events (cfg : Config) (m : Msg) :
    (sort_payload cfg m).2 = [] ∨
      ((sort_payload cfg m).2 = [invalidExp] ∧ (sort_payload cfg m).1 = none) := by
  unfold sort_payload
  split
  · split
    · rename_i e h1
      right
      obtain ⟨x, y, hxy⟩ := arraySort_error _ _ _ h1
      rw [sortCompare_error _ (gen_comp_error cfg (elemKey cfg) (elemKey_error cfg)) x y e hxy]
      exact ⟨rfl, rfl⟩
    · left; rfl
  · left; rfl

theorem process_msg_no_tooMany_of_zero (cfg : Config) (h0 : cfg.max_msgs = 0) (s : State)
    (m m0 : Msg) : tooMany m0 ∉ (process_msg cfg s m).2 := by
  cases hp : m.parts with
  | none =>
    simp only [process_msg, hp]
    rcases sort_payload_events cfg m with h1 | ⟨h1, h2⟩
    · cases hs : (sort_payload cfg m).1 with
      | none =>
        have : sort_payload cfg m = (none, []) := by rw [← h1, ← hs]
        simp [this]
      | some sorted =>
        have : sort_payload cfg m = (some sorted, []) := by rw [← h1, ← hs]
        simp [this, tooMany]
    · have : sort_payload cfg m = (none, [invalidExp]) := by rw [← h1, ← h2]
      simp [this, tooMany, invalidExp]
  | some p =>
    by_cases hc : check_parts p = true
    · rw [process_msg_valid cfg s m p hp hc]
      simp only [List.mem_append, not_or]
      refine ⟨insertStep_no_tooMany cfg s p m m0, ?_⟩
      simp [evictStep, max_kept_msgs_count, h0]
    · simp [process_msg, hp, hc]

theorem run_no_tooMany_of_zero (cfg : Config) (h0 : cfg.max_msgs = 0) :
    ∀ (ms : List Msg) (s : State) (m0 : Msg), tooMany m0 ∉ (run cfg s ms).2 := by
  intro ms
  induction ms with
  | nil => intro s m0; simp [run]
  | cons m r ih =>
    intro s m0
    simp only [run, List.mem_append, not_or]
    exact ⟨process_msg_no_tooMany_of_zero cfg h0 s m m0, ih _ m0⟩

/-! ## The sort of an array payload -/

theorem sortCompare_defined {ε : Type} (comp : JVal → JVal → Except ε Int) (x y : JVal)
    (hx : x.isUndefined = false) (hy : y.isUndefined = false) :
    sortCompare comp x y = comp x y := by
  simp [sortCompare, hx, hy]

theorem process_msg_array (cfg : Config) (s : State) (m : Msg) (elems sorted : List JVal)
    (hp : m.parts = none) (hpay : m.payload = .arr elems)
    (hs : arraySort (sortCompare (gen_comp cfg (elemKey cfg))) elems = .ok sorted) :
    process_msg cfg s m = (s, [.send { m with payload := .arr sorted }]) := by
  simp [process_msg, hp, sort_payload, hpay, hs]

theorem insertRev_congr {α ε : Type} (c1 c2 : α → α → Except ε Int) (P : α → Prop)
    (h : ∀ x y, P x → P y → c1 x y = c2 x y) (e : α) (he : P e) :
    ∀ rev : List α, (∀ x ∈ rev, P x) → insertRev c1 e rev = insertRev c2 e rev := by
  intro rev
  induction rev with
  | nil => intro _; rfl
  | cons tmp rest ih =>
    intro hrev
    simp only [insertRev, h tmp e (hrev tmp (List.mem_cons_self _ _)) he,
      ih (fun x hx => hrev x (List.mem_cons_of_mem _ hx))]

theorem sortLoop_congr {α ε : Type} (c1 c2 : α → α → Except ε Int) (P : α → Prop)
    (h : ∀ x y, P x → P y → c1 x y = c2 x y) :
    ∀ xs rev : List α, (∀ x ∈ rev, P x) → (∀ x ∈ xs, P x) →
      sortLoop c1 rev xs = sortLoop c2 rev xs := by
  intro xs
  induction xs with
  | nil => intro rev _ _; rfl
  | cons e rest ih =>
    intro rev hrev hxs
    simp only [sortLoop, insertRev_congr c1 c2 P h e (hxs e (List.mem_cons_self _ _)) rev hrev]
    cases h1 : insertRev c2 e rev with
    | error err => rfl
    | ok rev1 =>
      simp only
      refine ih rev1 ?_ (fun x hx => hxs x (List.mem_cons_of_mem _ hx))
      intro x hx
      have hx2 := (insertRev_perm c2 e rev rev1 h1).subset hx
      rcases List.mem_cons.1 hx2 with rfl | hx3
      · exact hxs x (List.mem_cons_self _ _)
      · exact hrev x hx3

theorem arraySort_defined {ε : Type} (comp : JVal → JVal → Except ε Int) (xs : List JVal)
    (hdef : ∀ x ∈ xs, x.isUndefined = false) :
    arraySort (sortCompare comp) xs = arraySort comp xs :=
  sortLoop_congr (sortCompare comp) comp (fun x => x.isUndefined = false)
    (fun x y hx hy => sortCompare_defined comp x y hx hy) xs [] (by simp) hdef

theorem arraySort_key_throws {α : Type} (cfg : Config) (key : α → Except Event JVal)
    (hkey : ∀ x e, key x = .error e → e = invalidExp) (xs : List α) (hlen : 2 ≤ xs.length)
    (hbad : ∃ x ∈ xs, ∃ err, key x = .error err) :
    arraySort (gen_comp cfg key) xs = .error invalidExp :=
  arraySort_throws (gen_comp cfg key) (fun x => ∃ err, key x = .error err) invalidExp
    (fun x y h => gen_comp_bad cfg key hkey x y h)
    (fun x y err h => gen_comp_error cfg key hkey x y err h) xs hlen hbad

/-! ## The comparator as an order -/

theorem keyComp_eq (cfg : Config) (a b : JVal) :
    keyComp cfg a b =
      .ok (if JVal.strictEq (conv cfg a) (conv cfg b) then 0
        else if JVal.gt (conv cfg a) (conv cfg b) then dir cfg else -(dir cfg)) :=
  gen_comp_ok cfg (fun k : JVal => .ok k) a b a b rfl rfl

/-- The comparator on a linear order is reflexive, antisymmetric in its sign
and transitive. -/
theorem preorder_linear {β : Type} [LinearOrder β] [∀ a b : β, Decidable (a = b)]
    [∀ a b : β, Decidable (a < b)] (d : Int) (hd : d = 1 ∨ d = -1) (a b c : β) :
    (if a = a then (0 : Int) else if a < a then d else -d) = 0 ∧
      (if a = b then (0 : Int) else if b < a then d else -d) =
        -(if b = a then (0 : Int) else if a < b then d else -d) ∧
      ((if a = b then (0 : Int) else if b < a then d else -d) ≤ 0 →
        (if b = c then (0 : Int) else if c < b then d else -d) ≤ 0 →
        (if a = c then (0 : Int) else if c < a then d else -d) ≤ 0) := by
  refine ⟨by simp, ?_, ?_⟩
  · rcases lt_trichotomy a b with h | h | h
    · have h1 : a ≠ b := ne_of_lt h
      have h2 : ¬ b < a := not_lt_of_gt h
      simp [h1, h1.symm, h, h2]
    · simp [h]
    · have h1 : a ≠ b := ne_of_gt h
      have h2 : ¬ a < b := not_lt_of_gt h
      simp [h1, h1.symm, h, h2]
  · rcases hd with rfl | rfl
    · intro hab hbc
      have h1 : a ≤ b := by
        by_contra hn
        have hlt : b < a := not_le.1 hn
        simp [ne_of_gt hlt, hlt] at hab
      have h2 : b ≤ c := by
        by_contra hn
        have hlt : c < b := not_le.1 hn
        simp [ne_of_gt hlt, hlt] at hbc
      have h3 : ¬ c < a := not_lt.2 (le_trans h1 h2)
      by_cases hac : a = c <;> simp [hac, h3]
    · intro hab hbc
      have h1 : b ≤ a := by
        by_contra hn
        have hlt : a < b := not_le.1 hn
        simp [ne_of_lt hlt, not_lt_of_gt hlt] at hab
      have h2 : c ≤ b := by
        by_contra hn
        have hlt : b < c := not_le.1 hn
        simp [ne_of_lt hlt, not_lt_of_gt hlt] at hbc
      have h3 : c ≤ a := le_trans h2 h1
      by_cases hac : a = c
      · simp [hac]
      · have h4 : c < a := lt_of_le_of_ne h3 (Ne.symm hac)
        simp [hac, h4]

theorem keyComp_int (cfg : Config) (a b : JVal) (i j : Int) (ha : conv cfg a = JVal.int i)
    (hb : conv cfg b = JVal.int j) :
    keyComp cfg a b = .ok (if i = j then 0 else if j < i then dir cfg else -(dir cfg)) := by
  rw [keyComp_eq, ha, hb]
  simp only [strictEq_int, JVal.gt, relLt_int, beq_iff_eq, Option.some.injEq, decide_eq_true_eq]

theorem keyComp_str (cfg : Config) (a b : JVal) (s t : String) (ha : conv cfg a = .str s)
    (hb : conv cfg b = .str t) :
    keyComp cfg a b = .ok (if s = t then 0 else if t < s then dir cfg else -(dir cfg)) := by
  rw [keyComp_eq, ha, hb]
  simp only [strictEq_str, JVal.gt, relLt_str, beq_iff_eq, Option.some.injEq, decide_eq_true_eq]

theorem relLt_num (x y : JNum) :
    JVal.relLt (.num x) (.num y) =
      match x, y with
      | .fin a, .fin b => some (decide (a < b))
      | _, _ => none := by
  simp [JVal.relLt, JVal.toPrimitive, JVal.toNumber]

theorem strictEq_nan (x y : JNum) (h : x = .nan ∨ y = .nan) :
    JVal.strictEq (.num x) (.num y) = false := by
  rcases h with rfl | rfl
  · simp [JVal.strictEq]
  · cases x <;> simp [JVal.strictEq]

theorem gt_nan (x y : JNum) (h : x = .nan ∨ y = .nan) : JVal.gt (.num x) (.num y) = false := by
  unfold JVal.gt
  rw [relLt_num]
  rcases h with rfl | rfl
  · cases y <;> simp
  · cases x <;> simp

theorem dir_ne (cfg : Config) : -(dir cfg) ≠ 0 ∧ -(dir cfg) ≠ dir cfg := by
  rcases dir_cases cfg with ⟨h, _⟩ | ⟨h, _⟩ <;> rw [h] <;> decide

/-! ## Groups do not interfere -/

theorem wfPending_cons (k : String) (g : Group) (r : List (String × Group)) :
    wfPending ((k, g) :: r) = true ↔
      (∀ x ∈ g.msgs, memberOk k x = true) ∧ wfPending r = true := by
  simp [wfPending, List.all_eq_true]

theorem wfPending_erase (gid : String) :
    ∀ pending : List (String × Group), wfPending pending = true →
      wfPending (eraseGroup gid pending) = true := by
  intro pending
  induction pending with
  | nil => intro h; exact h
  | cons kg r ih =>
    intro h
    obtain ⟨k, g⟩ := kg
    rw [wfPending_cons] at h
    simp only [eraseGroup]
    split_ifs
    · exact ih h.2
    · rw [wfPending_cons]
      exact ⟨h.1, ih h.2⟩

theorem wfPending_store (gid : String) (g : Group) (pending : List (String × Group))
    (h : wfPending pending = true) (hg : ∀ x ∈ g.msgs, memberOk gid x = true) :
    wfPending (storeGroup gid g pending) = true := by
  unfold storeGroup
  rw [wfPending_cons]
  exact ⟨hg, wfPending_erase gid pending h⟩

theorem wfPending_insertStep (cfg : Config) (s : State) (m : Msg) (p : Parts)
    (hwf : wfPending s.pending = true) (hp : m.parts = some p) (hc : check_parts p = true) :
    wfPending (insertStep cfg s p m).1.pending = true := by
  have hg := insertedGroup_memberOk s.pending p m hwf hp hc
  unfold insertStep
  simp only
  split_ifs
  · exact wfPending_erase _ _ (wfPending_store _ _ _ hwf hg)
  · exact wfPending_store _ _ _ hwf hg

theorem wfPending_evictStep (cfg : Config) (s : State) (m : Msg)
    (hwf : wfPending s.pending = true) : wfPending (evictStep cfg s m).1.pending = true := by
  unfold evictStep
  simp only
  split_ifs
  · rfl
  · exact hwf

theorem wfPending_process_msg (cfg : Config) (s : State) (m : Msg)
    (hwf : wfPending s.pending = true) : wfPending (process_msg cfg s m).1.pending = true := by
  rcases process_msg_state cfg s m with h1 | ⟨p, hp, hc, h1⟩
  · rw [h1]; exact hwf
  · rw [h1]; exact wfPending_evictStep cfg _ m (wfPending_insertStep cfg s m p hwf hp hc)

theorem wfPending_run (cfg : Config) :
    ∀ (ms : List Msg) (s : State), wfPending s.pending = true →
      wfPending (run cfg s ms).1.pending = true := by
  intro ms
  induction ms with
  | nil => intro s h; exact h
  | cons m r ih => intro s h; exact ih _ (wfPending_process_msg cfg s m h)

theorem sent_sendFrom_mem :
    ∀ (ms : List Msg) (i : Nat) (x : Msg), x ∈ sent (sendFrom i ms) →
      ∃ y ∈ ms, ∃ j, x = y.setIndex j
  | [], _, x, h => by simp [sendFrom, sent] at h
  | y :: r, i, x, h => by
    simp only [sendFrom, sent, List.mem_cons] at h
    rcases h with rfl | h
    · exact ⟨y, List.mem_cons_self _ _, i, rfl⟩
    · obtain ⟨z, hz, j, hj⟩ := sent_sendFrom_mem r (i + 1) x h
      exact ⟨z, List.mem_cons_of_mem _ hz, j, hj⟩

theorem memberOk_setIndex (g : String) (y : Msg) (j : Nat) (h : memberOk g y = true) :
    memberOk g (y.setIndex j) = true := by
  cases y with
  | mk payload parts extra =>
    cases parts with
    | none => simp [memberOk] at h
    | some q =>
      simp only [memberOk, check_parts, Bool.and_eq_true, beq_iff_eq] at h
      simp only [memberOk, Msg.setIndex, Option.map_some', check_parts, Parts.gid,
        Option.isSome_some, Bool.and_true, Bool.and_eq_true, beq_iff_eq]
      exact ⟨h.1.1, h.2⟩

theorem memberOk_unique (g h : String) (x : Msg) (hg : memberOk g x = true) (hne : h ≠ g) :
    memberOk h x = false := by
  cases hx : x.parts with
  | none => simp [memberOk, hx]
  | some q =>
    simp only [memberOk, hx, Bool.and_eq_true, beq_iff_eq] at hg
    simp only [memberOk, hx, Bool.and_eq_false_imp, beq_eq_false_iff_ne, ne_eq]
    intro _ h0
    exact hne (h0.symm.trans hg.2)

theorem sent_send_group_memberOk (cfg : Config) (grp : Group) (g : String)
    (hg : ∀ y ∈ grp.msgs, memberOk g y = true) :
    ∀ x ∈ sent (send_group cfg grp), memberOk g x = true := by
  intro x hx
  unfold send_group at hx
  split at hx
  · rename_i e h1
    obtain ⟨a, b, hab⟩ := arraySort_error _ _ e h1
    rw [gen_comp_error cfg (msgKey cfg) (msgKey_error cfg) a b e hab] at hx
    simp [invalidExp, sent] at hx
  · rename_i r h1
    obtain ⟨y, hy, j, rfl⟩ := sent_sendFrom_mem r 0 x hx
    exact memberOk_setIndex g y j (hg y ((arraySort_perm _ _ r h1).subset hy))

theorem sent_send_group_members (cfg : Config) (grp : Group) :
    ∀ x ∈ sent (send_group cfg grp), ∃ y ∈ grp.msgs, x.dropIndex = y.dropIndex := by
  intro x hx
  unfold send_group at hx
  split at hx
  · rename_i e h1
    obtain ⟨a, b, hab⟩ := arraySort_error _ _ e h1
    rw [gen_comp_error cfg (msgKey cfg) (msgKey_error cfg) a b e hab] at hx
    simp [invalidExp, sent] at hx
  · rename_i r h1
    obtain ⟨y, hy, j, rfl⟩ := sent_sendFrom_mem r 0 x hx
    exact ⟨y, (arraySort_perm _ _ r h1).subset hy, dropIndex_setIndex y j⟩

theorem lookup_insertStep_ne (cfg : Config) (s : State) (p : Parts) (m : Msg) (h : String)
    (hne : h ≠ p.gid) :
    lookupGroup h (insertStep cfg s p m).1.pending = lookupGroup h s.pending := by
  unfold insertStep
  simp only
  split_ifs
  · rw [erase_store, lookup_erase_ne _ _ hne]
  · rw [lookup_store_ne _ _ hne]

theorem lookup_insertStep_self (cfg : Config) (s : State) (p : Parts) (m : Msg) :
    lookupGroup p.gid (insertStep cfg s p m).1.pending =
      if isComplete (insertedGroup s.pending p m) then none
      else some (insertedGroup s.pending p m) := by
  unfold insertStep
  simp only
  split_ifs
  · rw [erase_store, lookup_erase_self]
  · rw [lookup_store_self]

theorem evictStep_zero (cfg : Config) (h0 : cfg.max_msgs = 0) (s : State) (m : Msg) :
    evictStep cfg s m = (s, []) := by
  simp [evictStep, max_kept_msgs_count, h0]

theorem insertedGroup_congr (pending1 pending2 : List (String × Group)) (p : Parts) (m : Msg)
    (h : lookupGroup p.gid pending1 = lookupGroup p.gid pending2) :
    insertedGroup pending1 p m = insertedGroup pending2 p m := by
  simp only [insertedGroup, h]

theorem memberOk_valid (g : String) (m : Msg) (h : memberOk g m = true) :
    ∃ p, m.parts = some p ∧ check_parts p = true ∧ p.gid = g := by
  cases hx : m.parts with
  | none => simp [memberOk, hx] at h
  | some q =>
    simp only [memberOk, hx, Bool.and_eq_true, beq_iff_eq] at h
    exact ⟨q, rfl, h.1, h.2⟩

theorem process_msg_noparts (cfg : Config) (s : State) (m : Msg) (hp : m.parts = none) :
    process_msg cfg s m = (s, []) ∨
      (∃ elems sorted, m.payload = .arr elems ∧
        arraySort (sortCompare (gen_comp cfg (elemKey cfg))) elems = .ok sorted ∧
        process_msg cfg s m = (s, [.send { m with payload := .arr sorted }])) ∨
      (∃ elems, m.payload = .arr elems ∧
        arraySort (sortCompare (gen_comp cfg (elemKey cfg))) elems = .error invalidExp ∧
        process_msg cfg s m = (s, [invalidExp])) := by
  cases hpay : m.payload with
  | arr elems =>
    cases hs : arraySort (sortCompare (gen_comp cfg (elemKey cfg))) elems with
    | ok sorted =>
      exact Or.inr (Or.inl ⟨elems, sorted, rfl, hs,
        process_msg_array cfg s m elems sorted hp hpay hs⟩)
    | error e =>
      obtain ⟨x, y, hxy⟩ := arraySort_error _ _ e hs
      have he := sortCompare_error _ (gen_comp_error cfg (elemKey cfg) (elemKey_error cfg))
        x y e hxy
      subst he
      exact Or.inr (Or.inr ⟨elems, rfl, hs, by simp [process_msg, hp, sort_payload, hpay, hs]⟩)
  | _ => exact Or.inl (by simp [process_msg, hp, sort_payload, hpay])

theorem sent_process_other (cfg : Config) (s : State) (m : Msg) (g : String)
    (hwf : wfPending s.pending = true) (hm : memberOk g m = false) :
    (sent (process_msg cfg s m).2).filter (memberOk g) = [] := by
  rw [List.filter_eq_nil_iff]
  intro x hx
  cases hp : m.parts with
  | none =>
    have h18 : (process_msg cfg s m).2 = [] ∨
        (∃ sorted, (process_msg cfg s m).2 = [.send { m with payload := .arr sorted }]) ∨
        (process_msg cfg s m).2 = [invalidExp] := by
      rcases process_msg_noparts cfg s m hp with h | ⟨_, sorted, _, _, h⟩ | ⟨_, _, _, h⟩
      · exact Or.inl (by rw [h])
      · exact Or.inr (Or.inl ⟨sorted, by rw [h]⟩)
      · exact Or.inr (Or.inr (by rw [h]))
    rcases h18 with h | ⟨sorted, h⟩ | h
    · rw [h] at hx; simp [sent] at hx
    · rw [h] at hx
      simp only [sent, List.mem_singleton] at hx
      subst hx
      simp [memberOk, hp]
    · rw [h] at hx; simp [sent, invalidExp] at hx
  | some p =>
    by_cases hc : check_parts p = true
    · have hne : g ≠ p.gid := by
        intro h0
        simp [memberOk, hp, hc, h0] at hm
      rw [sent_process_valid cfg s m p hp hc] at hx
      split_ifs at hx
      · have := sent_send_group_memberOk cfg _ p.gid
          (insertedGroup_memberOk s.pending p m hwf hp hc) x hx
        simp [memberOk_unique p.gid g x this hne]
      · simp at hx
    · have h1 : process_msg cfg s m = (s, []) := by simp [process_msg, hp, hc]
      rw [h1] at hx
      simp [sent] at hx

theorem lookup_process_other (cfg : Config) (h0 : cfg.max_msgs = 0) (s : State) (m : Msg)
    (g : String) (hm : memberOk g m = false) :
    lookupGroup g (process_msg cfg s m).1.pending = lookupGroup g s.pending := by
  rcases process_msg_state cfg s m with h1 | ⟨p, hp, hc, h1⟩
  · rw [h1]
  · have hne : g ≠ p.gid := by
      intro h2
      simp [memberOk, hp, hc, h2] at hm
    rw [h1, evictStep_zero cfg h0]
    exact lookup_insertStep_ne cfg s p m g hne

theorem run_filter (cfg : Config) (h0 : cfg.max_msgs = 0) (g : String) :
    ∀ (ms : List Msg) (s1 s2 : State), wfPending s1.pending = true →
      lookupGroup g s1.pending = lookupGroup g s2.pending →
      (sent (run cfg s1 ms).2).filter (memberOk g) =
        sent (run cfg s2 (ms.filter (memberOk g))).2 := by
  intro ms
  induction ms with
  | nil => intro s1 s2 _ _; rfl
  | cons m r ih =>
    intro s1 s2 hwf hl
    have hwf1 := wfPending_process_msg cfg s1 m hwf
    cases hm : memberOk g m with
    | false =>
      simp only [run, sent_append, List.filter_append, List.filter_cons, hm,
        sent_process_other cfg s1 m g hwf hm, List.nil_append]
      exact ih _ s2 hwf1 ((lookup_process_other cfg h0 s1 m g hm).trans hl)
    | true =>
      obtain ⟨p, hp, hc, hg⟩ := memberOk_valid g m hm
      subst hg
      have hgrp := insertedGroup_congr s1.pending s2.pending p m hl
      have he1 : (process_msg cfg s1 m).2 = (insertStep cfg s1 p m).2 := by
        rw [process_msg_valid cfg s1 m p hp hc, evictStep_zero cfg h0]
        simp
      have he2 : (process_msg cfg s2 m).2 = (insertStep cfg s2 p m).2 := by
        rw [process_msg_valid cfg s2 m p hp hc, evictStep_zero cfg h0]
        simp
      have hs1 : (process_msg cfg s1 m).1 = (insertStep cfg s1 p m).1 := by
        rw [process_msg_valid cfg s1 m p hp hc, evictStep_zero cfg h0]
      have hs2 : (process_msg cfg s2 m).1 = (insertStep cfg s2 p m).1 := by
        rw [process_msg_valid cfg s2 m p hp hc, evictStep_zero cfg h0]
      have hev : (process_msg cfg s1 m).2 = (process_msg cfg s2 m).2 := by
        rw [he1, he2, insertStep_events, insertStep_events, hgrp]
      have hall : (sent (process_msg cfg s1 m).2).filter (memberOk p.gid) =
          sent (process_msg cfg s1 m).2 := by
        rw [List.filter_eq_self]
        intro x hx
        rw [sent_process_valid cfg s1 m p hp hc] at hx
        split_ifs at hx
        · exact sent_send_group_memberOk cfg _ p.gid
            (insertedGroup_memberOk s1.pending p m hwf hp hc) x hx
        · simp at hx
      have hl1 : lookupGroup p.gid (process_msg cfg s1 m).1.pending =
          lookupGroup p.gid (process_msg cfg s2 m).1.pending := by
        rw [hs1, hs2, lookup_insertStep_self, lookup_insertStep_self, hgrp]
      simp only [run, sent_append, List.filter_append, List.filter_cons, hm, if_true, hall]
      rw [hev, ih _ _ hwf1 hl1]

/-! ## C1: a group is emitted when it is complete -/

/-- C1, the claim as stated fails: with a key expression that throws, the
second of two members completes the group of declared count 2, and nothing is
emitted. -/
theorem C1_complete_group_not_emitted :
    isComplete (insertedGroup
        (process_msg cfgThrows State.empty (partMsg "g" 0 (some 2) (.int 2))).1.pending
        (partsOf "g" 1 none) (partMsg "g" 1 none (.int 1))) = true ∧
      sent (process_msg cfgThrows
        (process_msg cfgThrows State.empty (partMsg "g" 0 (some 2) (.int 2))).1
        (partMsg "g" 1 none (.int 1))).2 = [] :=
  ⟨rfl, rfl⟩

/-- C1, amended: for a message with a valid parts descriptor, in every state,
`process_msg` sends messages if and only if, after the message is appended and
the count it declares is recorded, the count of its group equals the number of
members buffered and the sort of the group does not throw; when the key is
`msg.payload` the sort never throws, so it sends if and only if the group is
complete; and every message sent is a member of that group, up to
`parts.index`. -/
theorem C1_emits_iff_complete_and_sort_returns (cfg : Config) (s : State) (m : Msg) (p : Parts)
    (hp : m.parts = some p) (hc : check_parts p = true) :
    (sent (process_msg cfg s m).2 ≠ [] ↔
        isComplete (insertedGroup s.pending p m) = true ∧
          ∃ r, arraySort (gen_comp cfg (msgKey cfg)) (insertedGroup s.pending p m).msgs = .ok r) ∧
      (cfg.key_exp = none →
        (sent (process_msg cfg s m).2 ≠ [] ↔ isComplete (insertedGroup s.pending p m) = true)) ∧
      ∀ x ∈ sent (process_msg cfg s m).2,
        ∃ y ∈ (insertedGroup s.pending p m).msgs, x.dropIndex = y.dropIndex := by
  have hmain : sent (process_msg cfg s m).2 ≠ [] ↔
      isComplete (insertedGroup s.pending p m) = true ∧
        ∃ r, arraySort (gen_comp cfg (msgKey cfg)) (insertedGroup s.pending p m).msgs = .ok r := by
    rw [sent_process_valid cfg s m p hp hc]
    cases hcomp : isComplete (insertedGroup s.pending p m)
    · simp
    · simp only [if_true, true_and, send_group]
      cases hs : arraySort (gen_comp cfg (msgKey cfg)) (insertedGroup s.pending p m).msgs with
      | error e =>
        have he := gen_comp_error cfg (msgKey cfg) (msgKey_error cfg)
        obtain ⟨x, y, hxy⟩ := arraySort_error _ _ e hs
        rw [he x y e hxy]
        simp [invalidExp, sent]
      | ok r =>
        have hlen : (sent (sendFrom 0 r)).length = (insertedGroup s.pending p m).msgs.length := by
          rw [sent_sendFrom_length, (arraySort_perm _ _ r hs).length_eq]
        have hne : sent (sendFrom 0 r) ≠ [] := by
          intro h0
          rw [h0, insertedGroup_msgs] at hlen
          simp at hlen
        simp [hne]
  refine ⟨hmain, ?_, ?_⟩
  · intro hk
    rw [hmain]
    exact ⟨fun h => h.1, fun h => ⟨h, payloadKey_total cfg hk _⟩⟩
  · intro x hx
    rw [sent_process_valid cfg s m p hp hc] at hx
    split_ifs at hx with hcomp
    · simp only [send_group] at hx
      cases hs : arraySort (gen_comp cfg (msgKey cfg)) (insertedGroup s.pending p m).msgs with
      | error e =>
        rw [hs] at hx
        have he := gen_comp_error cfg (msgKey cfg) (msgKey_error cfg)
        obtain ⟨a, b, hab⟩ := arraySort_error _ _ e hs
        rw [he a b e hab] at hx
        simp [invalidExp, sent] at hx
      | ok r =>
        rw [hs] at hx
        simp only at hx
        have h1 : x.dropIndex ∈ (sent (sendFrom 0 r)).map Msg.dropIndex :=
          List.mem_map_of_mem _ hx
        rw [sent_sendFrom_dropIndex] at h1
        obtain ⟨y, hy, hxy⟩ := List.mem_map.1 h1
        exact ⟨y, (arraySort_perm _ _ r hs).subset hy, hxy.symm⟩
    · simp at hx

/-- C1, the theorem at a group of declared count 2 whose second member
arrives: the group is complete and both members are sent. -/
theorem C1_emits_iff_complete_and_sort_returns_witness :
    (partMsg "g" 1 none (.int 1)).parts = some (partsOf "g" 1 none) ∧
      check_parts (partsOf "g" 1 none) = true ∧
      sent (process_msg cfgPayload
        (process_msg cfgPayload State.empty (partMsg "g" 0 (some 2) (.int 2))).1
        (partMsg "g" 1 none (.int 1))).2 ≠ [] :=
  ⟨rfl, rfl,
    ((C1_emits_iff_complete_and_sort_returns cfgPayload
      (process_msg cfgPayload State.empty (partMsg "g" 0 (some 2) (.int 2))).1
      (partMsg "g" 1 none (.int 1)) (partsOf "g" 1 none) rfl rfl).2.1 rfl).2 rfl⟩

/-! ## C2: the emitted group is in key order -/

/-- C2, the claim as stated fails: in numeric mode the payloads `"abc"` and `1`
have the keys `NaN` and `1`; the completed group is sent in the order of
arrival, and `NaN <= 1` is false (as is `1 <= NaN`, so no order of the two
would do). -/
theorem C2_nan_key_not_in_order :
    sent (send_group cfgNumeric
        { count := .int 2,
          msgs := [partMsg "g" 0 none (.str "abc"), partMsg "g" 1 (some 2) (.int 1)] }) =
        [(partMsg "g" 0 none (.str "abc")).setIndex 0,
          (partMsg "g" 1 (some 2) (.int 1)).setIndex 1] ∧
      ¬ KeyOrdered cfgNumeric (msgKey cfgNumeric)
        ((partMsg "g" 0 none (.str "abc")).setIndex 0)
        ((partMsg "g" 1 (some 2) (.int 1)).setIndex 1) ∧
      ¬ KeyOrdered cfgNumeric (msgKey cfgNumeric)
        ((partMsg "g" 1 (some 2) (.int 1)).setIndex 1)
        ((partMsg "g" 0 none (.str "abc")).setIndex 0) := by
  refine ⟨rfl, ?_, ?_⟩
  · rintro ⟨kx, ky, hx, hy, h⟩
    have hx2 : kx = .str "abc" := by
      have : msgKey cfgNumeric ((partMsg "g" 0 none (.str "abc")).setIndex 0)
          = .ok (.str "abc") := rfl
      rw [this] at hx
      exact (Except.ok.inj hx).symm
    have hy2 : ky = .int 1 := by
      have : msgKey cfgNumeric ((partMsg "g" 1 (some 2) (.int 1)).setIndex 1)
          = .ok (.int 1) := rfl
      rw [this] at hy
      exact (Except.ok.inj hy).symm
    subst hx2 hy2
    exact absurd h (by decide)
  · rintro ⟨kx, ky, hx, hy, h⟩
    have hy2 : ky = .str "abc" := by
      have : msgKey cfgNumeric ((partMsg "g" 0 none (.str "abc")).setIndex 0)
          = .ok (.str "abc") := rfl
      rw [this] at hy
      exact (Except.ok.inj hy).symm
    have hx2 : kx = .int 1 := by
      have : msgKey cfgNumeric ((partMsg "g" 1 (some 2) (.int 1)).setIndex 1)
          = .ok (.int 1) := rfl
      rw [this] at hx
      exact (Except.ok.inj hx).symm
    subst hx2 hy2
    exact absurd h (by decide)

/-- C2, amended: when the keys of the members of a group all evaluate and,
after the configured coercion, are all numbers other than `NaN` or all
strings, `send_group` sends the members in an order in which every member and
its right neighbour have keys `key(x) <= key(y)` when the order is ascending
and `key(x) >= key(y)` when it is descending, the key being evaluated on the
member as it was buffered; when the key is `msg.payload` the same holds of the
messages as they are sent. -/
theorem C2_group_sent_in_key_order (cfg : Config) (group : Group)
    (hc : Comparable cfg (msgKey cfg) group.msgs) :
    ∃ sorted, send_group cfg group = sendFrom 0 sorted ∧ sorted.Perm group.msgs ∧
      List.Chain' (KeyOrdered cfg (msgKey cfg)) sorted ∧
      (cfg.key_exp = none →
        List.Chain' (KeyOrdered cfg (msgKey cfg)) (sent (send_group cfg group))) := by
  obtain ⟨sorted, hs⟩ := arraySort_succeeds (gen_comp cfg (msgKey cfg)) group.msgs
    (fun x y hx hy => comparable_total cfg (msgKey cfg) group.msgs hc x y hx hy)
  have hperm := arraySort_perm _ _ _ hs
  have hchain : List.Chain' (KeyOrdered cfg (msgKey cfg)) sorted := by
    have h1 := List.Chain'.iff_mem.1 (arraySort_chain _ _ _ hs)
    refine h1.imp ?_
    intro x y hxy
    exact placed_ordered cfg (msgKey cfg) group.msgs hc x y (hperm.subset hxy.1)
      (hperm.subset hxy.2.1) hxy.2.2
  have hsend : send_group cfg group = sendFrom 0 sorted := by simp [send_group, hs]
  refine ⟨sorted, hsend, hperm, hchain, ?_⟩
  intro hk
  rw [hsend]
  refine sendFrom_chain _ ?_ sorted 0 hchain
  rintro x y i j ⟨kx, ky, hx, hy, h⟩
  refine ⟨kx, ky, ?_, ?_, h⟩
  · simpa [msgKey, hk, Msg.setIndex] using hx
  · simpa [msgKey, hk, Msg.setIndex] using hy

/-- C2, the theorem at the group with the payloads `"10"`, `"2"`, `"1"` in
numeric mode. -/
theorem C2_group_sent_in_key_order_witness :
    ∃ sorted, send_group cfgNumeric
        { count := .int 3,
          msgs := [partMsg "g" 0 none (.str "10"), partMsg "g" 1 none (.str "2"),
            partMsg "g" 2 (some 3) (.str "1")] } = sendFrom 0 sorted ∧
      sorted.Perm [partMsg "g" 0 none (.str "10"), partMsg "g" 1 none (.str "2"),
            partMsg "g" 2 (some 3) (.str "1")] ∧
      List.Chain' (KeyOrdered cfgNumeric (msgKey cfgNumeric)) sorted ∧
      (cfgNumeric.key_exp = none →
        List.Chain' (KeyOrdered cfgNumeric (msgKey cfgNumeric))
          (sent (send_group cfgNumeric
            { count := .int 3,
              msgs := [partMsg "g" 0 none (.str "10"), partMsg "g" 1 none (.str "2"),
                partMsg "g" 2 (some 3) (.str "1")] }))) :=
  C2_group_sent_in_key_order cfgNumeric
    { count := .int 3,
      msgs := [partMsg "g" 0 none (.str "10"), partMsg "g" 1 none (.str "2"),
        partMsg "g" 2 (some 3) (.str "1")] }
    (Or.inl (by
      intro x hx
      simp only [List.mem_cons, List.mem_singleton, List.not_mem_nil, or_false] at hx
      rcases hx with rfl | rfl | rfl
      · exact ⟨_, 10, rfl, rfl⟩
      · exact ⟨_, 2, rfl, rfl⟩
      · exact ⟨_, 1, rfl, rfl⟩))

/-! ## C3: the emitted index is the position -/

/-- C3: in a state in which every buffered message has its place, when a
message with a valid parts descriptor makes `process_msg` send messages, the
values of `parts.index` of the messages sent are `0, 1, ..., N-1` in the order
of sending, `N` being the number of messages sent, and `N` is the count of the
group. -/
theorem C3_emitted_index_is_position (cfg : Config) (s : State) (m : Msg) (p : Parts)
    (hwf : wfPending s.pending = true) (hp : m.parts = some p) (hc : check_parts p = true) :
    (sent (process_msg cfg s m).2).map Msg.index =
        (List.range (sent (process_msg cfg s m).2).length).map (fun i => some (JVal.int i)) ∧
      (sent (process_msg cfg s m).2 ≠ [] →
        (insertedGroup s.pending p m).count = JVal.int (sent (process_msg cfg s m).2).length) := by
  rw [sent_process_valid cfg s m p hp hc]
  cases hcomp : isComplete (insertedGroup s.pending p m)
  · simp
  · simp only [if_true, send_group]
    cases hs : arraySort (gen_comp cfg (msgKey cfg)) (insertedGroup s.pending p m).msgs with
    | error e =>
      have he := gen_comp_error cfg (msgKey cfg) (msgKey_error cfg)
      obtain ⟨x, y, hxy⟩ := arraySort_error _ _ e hs
      rw [he x y e hxy]
      simp [invalidExp, sent]
    | ok r =>
      have hperm := arraySort_perm _ _ r hs
      have hparts : ∀ x ∈ r, x.parts.isSome = true := fun x hx =>
        memberOk_parts p.gid x
          (insertedGroup_memberOk s.pending p m hwf hp hc x (hperm.subset hx))
      refine ⟨?_, ?_⟩
      · simp only [sent_sendFrom_index r 0 hparts, sent_sendFrom_length, List.range_eq_range']
      · intro _
        simp only [sent_sendFrom_length, hperm.length_eq]
        exact strictEq_int_right _ _ hcomp

/-- C3, the theorem at the second member of a group of declared count 2: the
members arrive with the indexes 7 and 5 and leave with 0 and 1. -/
theorem C3_emitted_index_is_position_witness :
    wfPending (process_msg cfgPayload State.empty
        (partMsg "g" 7 (some 2) (.int 2))).1.pending = true ∧
      (sent (process_msg cfgPayload
        (process_msg cfgPayload State.empty (partMsg "g" 7 (some 2) (.int 2))).1
        (partMsg "g" 5 none (.int 1))).2).map Msg.index = [some (.int 0), some (.int 1)] :=
  ⟨rfl,
    (C3_emitted_index_is_position cfgPayload
      (process_msg cfgPayload State.empty (partMsg "g" 7 (some 2) (.int 2))).1
      (partMsg "g" 5 none (.int 1)) (partsOf "g" 5 none) rfl rfl rfl).1.trans rfl⟩

/-! ## C4: the emitted group is a permutation of the buffered members -/

/-- C4: when a message with a valid parts descriptor completes its group and
the sort of the group returns, the messages sent are as many as the members
buffered, which is the count of the group, and without `parts.index` they are
a permutation of the members as they arrived. -/
theorem C4_emitted_is_permutation (cfg : Config) (s : State) (m : Msg) (p : Parts)
    (sorted : List Msg) (hp : m.parts = some p) (hc : check_parts p = true)
    (hcomp : isComplete (insertedGroup s.pending p m) = true)
    (hs : arraySort (gen_comp cfg (msgKey cfg)) (insertedGroup s.pending p m).msgs = .ok sorted) :
    (sent (process_msg cfg s m).2).length = (insertedGroup s.pending p m).msgs.length ∧
      (insertedGroup s.pending p m).count = JVal.int (sent (process_msg cfg s m).2).length ∧
      ((sent (process_msg cfg s m).2).map Msg.dropIndex).Perm
        ((insertedGroup s.pending p m).msgs.map Msg.dropIndex) := by
  have hperm := arraySort_perm _ _ sorted hs
  have hsent : sent (process_msg cfg s m).2 = sent (sendFrom 0 sorted) := by
    rw [sent_process_valid cfg s m p hp hc]
    simp [hcomp, send_group, hs]
  rw [hsent, sent_sendFrom_length, sent_sendFrom_dropIndex, hperm.length_eq]
  exact ⟨rfl, strictEq_int_right _ _ hcomp, hperm.map _⟩

/-- C4, the theorem at the second member of a group of declared count 2. -/
theorem C4_emitted_is_permutation_witness :
    (sent (process_msg cfgPayload
        (process_msg cfgPayload State.empty (partMsg "g" 7 (some 2) (.int 2))).1
        (partMsg "g" 5 none (.int 1))).2).length = 2 ∧
      ((sent (process_msg cfgPayload
        (process_msg cfgPayload State.empty (partMsg "g" 7 (some 2) (.int 2))).1
        (partMsg "g" 5 none (.int 1))).2).map Msg.dropIndex).Perm
        ([partMsg "g" 7 (some 2) (.int 2), partMsg "g" 5 none (.int 1)].map Msg.dropIndex) :=
  ⟨(C4_emitted_is_permutation cfgPayload
      (process_msg cfgPayload State.empty (partMsg "g" 7 (some 2) (.int 2))).1
      (partMsg "g" 5 none (.int 1)) (partsOf "g" 5 none)
      [partMsg "g" 5 none (.int 1), partMsg "g" 7 (some 2) (.int 2)] rfl rfl rfl rfl).1,
    (C4_emitted_is_permutation cfgPayload
      (process_msg cfgPayload State.empty (partMsg "g" 7 (some 2) (.int 2))).1
      (partMsg "g" 5 none (.int 1)) (partsOf "g" 5 none)
      [partMsg "g" 5 none (.int 1), partMsg "g" 7 (some 2) (.int 2)] rfl rfl rfl rfl).2.2⟩

/-! ## C5: the eviction clears the store -/

/-- C5: with a threshold `T > 0`, in every state, when the counter of buffered
messages exceeds `T` after a valid message has been inserted (and its group,
if the insertion completed it, removed), `process_msg` leaves a store without
groups and with the counter at 0, reports `sort.too-many` with the message,
and the next valid message, whatever its group id, starts a group of which it
is the only member and whose count is the one it declares. -/
theorem C5_eviction_clears_store (cfg : Config) (s : State) (m : Msg) (p : Parts)
    (hT : 0 < cfg.max_msgs) (hp : m.parts = some p) (hc : check_parts p = true)
    (hover : (insertStep cfg s p m).1.pending_count > (cfg.max_msgs : Int)) :
    (process_msg cfg s m).1.pending = [] ∧ (process_msg cfg s m).1.pending_count = 0 ∧
      tooMany m ∈ (process_msg cfg s m).2 ∧
      ∀ (m2 : Msg) (p2 : Parts),
        (insertedGroup (process_msg cfg s m).1.pending p2 m2).msgs = [m2] ∧
          (insertedGroup (process_msg cfg s m).1.pending p2 m2).count =
            p2.count.getD .undefined := by
  have hev : evictStep cfg (insertStep cfg s p m).1 m =
      ({ pending := [], pending_count := 0 }, [tooMany m]) := by
    simp only [evictStep, max_kept_msgs_count]
    rw [if_pos ⟨hT, hover⟩]
    rfl
  rw [process_msg_valid cfg s m p hp hc, hev]
  refine ⟨rfl, rfl, by simp, ?_⟩
  intro m2 p2
  refine ⟨rfl, ?_⟩
  cases hcount : p2.count <;> simp [insertedGroup, lookupGroup, hcount]

/-- C5, the theorem with the threshold 1: a second message, of another group,
takes the counter to 2. -/
theorem C5_eviction_clears_store_witness :
    (process_msg (cfgCap 1) (process_msg (cfgCap 1) State.empty (partMsg "g" 0 none (.int 1))).1
        (partMsg "h" 0 none (.int 2))).1.pending = [] ∧
      tooMany (partMsg "h" 0 none (.int 2)) ∈
        (process_msg (cfgCap 1)
          (process_msg (cfgCap 1) State.empty (partMsg "g" 0 none (.int 1))).1
          (partMsg "h" 0 none (.int 2))).2 :=
  ⟨(C5_eviction_clears_store (cfgCap 1)
      (process_msg (cfgCap 1) State.empty (partMsg "g" 0 none (.int 1))).1
      (partMsg "h" 0 none (.int 2)) (partsOf "h" 0 none) (by decide) rfl rfl (by decide)).1,
    (C5_eviction_clears_store (cfgCap 1)
      (process_msg (cfgCap 1) State.empty (partMsg "g" 0 none (.int 1))).1
      (partMsg "h" 0 none (.int 2)) (partsOf "h" 0 none) (by decide) rfl rfl (by decide)).2.2.1⟩

/-! ## C6: when the eviction happens -/

/-- C6: for every threshold and every valid message, `process_msg` reports
`sort.too-many` if and only if the threshold is not 0 and the counter of
buffered messages exceeds it after the insertion (and the removal of the group
if the insertion completed it); in that case the state is cleared, and
otherwise the state is the one the insertion left; with the threshold 0 no
sequence of messages, from any state, makes the report. -/
theorem C6_eviction_iff_over_threshold (cfg : Config) (s : State) (m : Msg) (p : Parts)
    (hp : m.parts = some p) (hc : check_parts p = true) :
    (tooMany m ∈ (process_msg cfg s m).2 ↔
        cfg.max_msgs ≠ 0 ∧ (insertStep cfg s p m).1.pending_count > (cfg.max_msgs : Int)) ∧
      (cfg.max_msgs ≠ 0 ∧ (insertStep cfg s p m).1.pending_count > (cfg.max_msgs : Int) →
        (process_msg cfg s m).1 = State.empty) ∧
      (¬ (cfg.max_msgs ≠ 0 ∧ (insertStep cfg s p m).1.pending_count > (cfg.max_msgs : Int)) →
        (process_msg cfg s m).1 = (insertStep cfg s p m).1) ∧
      (cfg.max_msgs = 0 →
        ∀ (s0 : State) (ms : List Msg) (m0 : Msg), tooMany m0 ∉ (run cfg s0 ms).2) := by
  rw [process_msg_valid cfg s m p hp hc]
  have hno := insertStep_no_tooMany cfg s p m m
  by_cases hover : cfg.max_msgs ≠ 0 ∧
      (insertStep cfg s p m).1.pending_count > (cfg.max_msgs : Int)
  · have hev : evictStep cfg (insertStep cfg s p m).1 m =
        ({ pending := [], pending_count := 0 }, [tooMany m]) := by
      simp only [evictStep, max_kept_msgs_count]
      rw [if_pos ⟨Nat.pos_of_ne_zero hover.1, hover.2⟩]
      rfl
    rw [hev]
    refine ⟨?_, fun _ => rfl, fun h => absurd hover h, fun h0 => absurd h0 hover.1⟩
    simp [hover.1, hover.2]
  · have hev : evictStep cfg (insertStep cfg s p m).1 m = ((insertStep cfg s p m).1, []) := by
      simp only [evictStep, max_kept_msgs_count]
      rw [if_neg]
      intro h
      exact hover ⟨Nat.pos_iff_ne_zero.1 h.1, h.2⟩
    rw [hev]
    refine ⟨?_, fun h => absurd h hover, fun _ => rfl, ?_⟩
    · simp only [List.append_nil]
      exact ⟨fun h => absurd h hno, fun h => absurd h hover⟩
    · intro h0 s0 ms m0
      exact run_no_tooMany_of_zero cfg h0 ms s0 m0

/-- C6, the theorem with the threshold 1 at the second buffered message: the
counter is 2 and the report is made. -/
theorem C6_eviction_iff_over_threshold_witness :
    tooMany (partMsg "h" 0 none (.int 2)) ∈
      (process_msg (cfgCap 1) (process_msg (cfgCap 1) State.empty (partMsg "g" 0 none (.int 1))).1
        (partMsg "h" 0 none (.int 2))).2 :=
  (C6_eviction_iff_over_threshold (cfgCap 1)
    (process_msg (cfgCap 1) State.empty (partMsg "g" 0 none (.int 1))).1
    (partMsg "h" 0 none (.int 2)) (partsOf "h" 0 none) rfl rfl).1.2 ⟨by decide, by decide⟩

/-! ## C7: the counter and the buffered messages -/

/-- C7, the code at the failing input: the instance starts with the `pending`
the context store returns, holding one message of group `g`, and with the
counter at 0; after a message of group `h` the counter is 1 while two messages
are buffered. -/
theorem C7_counter_misses_restored_messages :
    (process_msg cfgPayload
        (State.start [("g", { count := .undefined, msgs := [partMsg "g" 0 none (.int 1)] })])
        (partMsg "h" 0 none (.int 2))).1.pending_count = 1 ∧
      total (process_msg cfgPayload
        (State.start [("g", { count := .undefined, msgs := [partMsg "g" 0 none (.int 1)] })])
        (partMsg "h" 0 none (.int 2))).1.pending = 2 :=
  ⟨by decide, by decide⟩

/-! ## C8: the cap on the buffered messages -/

/-- C8: with a threshold `T > 0`, after every sequence of messages processed
from the empty store, the number of messages buffered in all the groups is at
most `T`. -/
theorem C8_buffered_at_most_threshold (cfg : Config) (hT : 0 < cfg.max_msgs) (ms : List Msg) :
    total (run cfg State.empty ms).1.pending ≤ (cfg.max_msgs : Int) := by
  have h1 := run_counted cfg ms State.empty ⟨List.nodup_nil, rfl⟩
  have h2 := run_bound cfg hT ms State.empty (by simp [State.empty])
  rw [← h1.2]
  exact h2

/-- C8, the theorem with the threshold 1 and three messages of three
groups. -/
theorem C8_buffered_at_most_threshold_witness :
    total (run (cfgCap 1) State.empty
      [partMsg "g" 0 none (.int 1), partMsg "h" 0 none (.int 2),
        partMsg "k" 0 none (.int 3)]).1.pending ≤ 1 :=
  C8_buffered_at_most_threshold (cfgCap 1) (by decide)
    [partMsg "g" 0 none (.int 1), partMsg "h" 0 none (.int 2), partMsg "k" 0 none (.int 3)]

/-! ## C9: a message with a malformed parts descriptor -/

/-- C9: for a message whose parts descriptor lacks `id` or lacks `index`,
`process_msg` makes no call and leaves the state as it was, whatever the
payload. -/
theorem C9_malformed_parts_dropped (cfg : Config) (s : State) (m : Msg) (p : Parts)
    (hp : m.parts = some p) (hbad : p.id = none ∨ p.index = none) :
    process_msg cfg s m = (s, []) := by
  have hc : check_parts p = false := by
    unfold check_parts
    rcases hbad with h | h <;> simp [h]
  simp [process_msg, hp, hc]

/-- C9, the theorem at the message with `parts = {index: 0}` and an array
payload. -/
theorem C9_malformed_parts_dropped_witness :
    process_msg cfgPayload State.empty
        { payload := .arr [.int 3, .int 1],
          parts := some { id := none, index := some (.int 0), count := none, extra := [] },
          extra := [] } = (State.empty, []) :=
  C9_malformed_parts_dropped cfgPayload State.empty _
    { id := none, index := some (.int 0), count := none, extra := [] } rfl (Or.inl rfl)

/-! ## C10: the sort of an array payload -/

/-- C10, the claim as stated fails: the payload `["a", 1]` is sorted on the
elements themselves without a key evaluation failing, the message is sent with
the payload in the same order, and neither `"a" <= 1` nor `1 <= "a"` holds. -/
theorem C10_mixed_keys_not_in_order :
    process_msg cfgPayload State.empty (arrayMsg [.str "a", .int 1]) =
        (State.empty, [.send (arrayMsg [.str "a", .int 1])]) ∧
      ¬ KeyOrdered cfgPayload (elemKey cfgPayload) (.str "a") (.int 1) ∧
      ¬ KeyOrdered cfgPayload (elemKey cfgPayload) (.int 1) (.str "a") := by
  refine ⟨rfl, ?_, ?_⟩
  · rintro ⟨kx, ky, hx, hy, h⟩
    have hx2 : kx = .str "a" := (Except.ok.inj hx).symm
    have hy2 : ky = .int 1 := (Except.ok.inj hy).symm
    subst hx2 hy2
    exact absurd h (by decide)
  · rintro ⟨kx, ky, hx, hy, h⟩
    have hx2 : kx = .int 1 := (Except.ok.inj hx).symm
    have hy2 : ky = .str "a" := (Except.ok.inj hy).symm
    subst hx2 hy2
    exact absurd h (by decide)

/-- C10, amended: for a message without a parts descriptor whose payload is an
array, when the sort returns (no key evaluation throws) `process_msg` sends
that message exactly once, with a payload that is a permutation of the
original elements, and leaves the state as it was; when moreover no element is
`undefined` and the keys of the elements, after the configured coercion, are
all numbers other than `NaN` or all strings, every element and its right
neighbour have keys in the configured order (ascending: `key(x) <= key(y)`). -/
theorem C10_array_payload_sorted (cfg : Config) (s : State) (m : Msg) (elems : List JVal)
    (hp : m.parts = none) (hpay : m.payload = .arr elems) :
    (∀ sorted, arraySort (sortCompare (gen_comp cfg (elemKey cfg))) elems = .ok sorted →
        process_msg cfg s m = (s, [.send { m with payload := .arr sorted }]) ∧
          sorted.Perm elems) ∧
      ((∀ e ∈ elems, e.isUndefined = false) → Comparable cfg (elemKey cfg) elems →
        ∃ sorted, process_msg cfg s m = (s, [.send { m with payload := .arr sorted }]) ∧
          sorted.Perm elems ∧ List.Chain' (KeyOrdered cfg (elemKey cfg)) sorted) := by
  refine ⟨fun sorted hs => ⟨process_msg_array cfg s m elems sorted hp hpay hs,
    arraySort_perm _ _ _ hs⟩, ?_⟩
  intro hdef hc
  obtain ⟨sorted, hs⟩ := arraySort_succeeds (sortCompare (gen_comp cfg (elemKey cfg))) elems
    (fun x y hx hy => by
      rw [sortCompare_defined _ x y (hdef x hx) (hdef y hy)]
      exact comparable_total cfg (elemKey cfg) elems hc x y hx hy)
  have hperm := arraySort_perm _ _ _ hs
  refine ⟨sorted, process_msg_array cfg s m elems sorted hp hpay hs, hperm, ?_⟩
  have h1 := List.Chain'.iff_mem.1 (arraySort_chain _ _ _ hs)
  refine h1.imp ?_
  intro x y hxy
  have hx := hperm.subset hxy.1
  have hy := hperm.subset hxy.2.1
  refine placed_ordered cfg (elemKey cfg) elems hc x y hx hy ?_
  have h2 := hxy.2.2
  unfold Placed at h2 ⊢
  rwa [sortCompare_defined _ x y (hdef x hx) (hdef y hy),
    sortCompare_defined _ y x (hdef y hy) (hdef x hx)] at h2

/-- C10, the theorem at the example of the specification: the payload
`[{"payload":3},{"payload":1}]` sorted ascending on the expression `payload`
is sent once, as `[{"payload":1},{"payload":3}]`. -/
theorem C10_array_payload_sorted_witness :
    (arrayMsg [payloadObj (.int 3), payloadObj (.int 1)]).parts = none ∧
      process_msg cfgField State.empty (arrayMsg [payloadObj (.int 3), payloadObj (.int 1)]) =
        (State.empty, [.send (arrayMsg [payloadObj (.int 1), payloadObj (.int 3)])]) ∧
      ∃ sorted,
        process_msg cfgField State.empty (arrayMsg [payloadObj (.int 3), payloadObj (.int 1)]) =
          (State.empty, [.send (arrayMsg sorted)]) ∧
        sorted.Perm [payloadObj (.int 3), payloadObj (.int 1)] ∧
        List.Chain' (KeyOrdered cfgField (elemKey cfgField)) sorted :=
  ⟨rfl,
    ((C10_array_payload_sorted cfgField State.empty
      (arrayMsg [payloadObj (.int 3), payloadObj (.int 1)])
      [payloadObj (.int 3), payloadObj (.int 1)] rfl rfl).1
      [payloadObj (.int 1), payloadObj (.int 3)] rfl).1,
    (C10_array_payload_sorted cfgField State.empty
      (arrayMsg [payloadObj (.int 3), payloadObj (.int 1)])
      [payloadObj (.int 3), payloadObj (.int 1)] rfl rfl).2
      (by
        intro e he
        simp only [List.mem_cons, List.mem_singleton, List.not_mem_nil, or_false] at he
        rcases he with rfl | rfl <;> rfl)
      (Or.inl (by
        intro x hx
        simp only [List.mem_cons, List.mem_singleton, List.not_mem_nil, or_false] at hx
        rcases hx with rfl | rfl
        · exact ⟨_, 3, rfl, rfl⟩
        · exact ⟨_, 1, rfl, rfl⟩))⟩

/-! ## C11: an array payload whose key evaluation fails -/

/-- C11, the claim as stated fails: the key expression throws on the only
element of the payload `[5]`, and the message is sent: the host's sort does
not call the comparator on an array of one element. -/
theorem C11_single_element_sent :
    elemKey cfgThrows (.int 5) = .error invalidExp ∧
      process_msg cfgThrows State.empty (arrayMsg [.int 5]) =
        (State.empty, [.send (arrayMsg [.int 5])]) :=
  ⟨rfl, rfl⟩

/-- C11, amended: for a message without a parts descriptor whose payload is an
array of two elements or more, none of them `undefined`, if evaluating the key
expression fails for an element of the array, `process_msg` sends no message:
its only call is the report `sort.invalid-exp`, and the state is as it was. -/
theorem C11_array_key_failure_not_sent (cfg : Config) (s : State) (m : Msg) (elems : List JVal)
    (hp : m.parts = none) (hpay : m.payload = .arr elems) (hlen : 2 ≤ elems.length)
    (hdef : ∀ e ∈ elems, e.isUndefined = false)
    (hbad : ∃ e ∈ elems, ∃ err, elemKey cfg e = .error err) :
    process_msg cfg s m = (s, [invalidExp]) ∧ sent (process_msg cfg s m).2 = [] := by
  have hs : arraySort (sortCompare (gen_comp cfg (elemKey cfg))) elems = .error invalidExp := by
    rw [arraySort_defined _ elems hdef]
    exact arraySort_key_throws cfg (elemKey cfg) (elemKey_error cfg) elems hlen hbad
  have h1 : process_msg cfg s m = (s, [invalidExp]) := by
    simp [process_msg, hp, sort_payload, hpay, hs]
  rw [h1]
  exact ⟨rfl, rfl⟩

/-- C11, the theorem at the payload `[2, 1]` with an expression that
throws. -/
theorem C11_array_key_failure_not_sent_witness :
    process_msg cfgThrows State.empty (arrayMsg [.int 2, .int 1]) = (State.empty, [invalidExp]) :=
  (C11_array_key_failure_not_sent cfgThrows State.empty (arrayMsg [.int 2, .int 1])
    [.int 2, .int 1] rfl rfl (by decide)
    (by
      intro e he
      simp only [List.mem_cons, List.mem_singleton, List.not_mem_nil, or_false] at he
      rcases he with rfl | rfl <;> rfl)
    ⟨.int 2, by simp, invalidExp, rfl⟩).1

/-! ## C12: a group whose key evaluation fails -/

/-- C12, the claim as stated fails: the key expression throws on the only
member of a group of declared count 1, and the member is sent: the host's sort
does not call the comparator on an array of one element. -/
theorem C12_single_member_sent :
    msgKey cfgThrows (partMsg "g" 0 (some 1) (.int 5)) = .error invalidExp ∧
      process_msg cfgThrows State.empty (partMsg "g" 0 (some 1) (.int 5)) =
        (State.empty, [.send ((partMsg "g" 0 (some 1) (.int 5)).setIndex 0)]) :=
  ⟨rfl, rfl⟩

/-- C12, amended: when a valid message completes its group, the messages sent
are none or as many as the members of the group; the group is removed from the
store, and the counter, before the eviction check, is the counter before the
message plus one less the size of the group; and when the group has two
members or more and the key evaluation fails for a member, no message is sent
and `sort.invalid-exp` is reported. -/
theorem C12_group_key_failure_not_sent (cfg : Config) (s : State) (m : Msg) (p : Parts)
    (hp : m.parts = some p) (hc : check_parts p = true)
    (hcomp : isComplete (insertedGroup s.pending p m) = true) :
    (sent (process_msg cfg s m).2 = [] ∨
        (sent (process_msg cfg s m).2).length = (insertedGroup s.pending p m).msgs.length) ∧
      lookupGroup p.gid (process_msg cfg s m).1.pending = none ∧
      (insertStep cfg s p m).1.pending_count =
        s.pending_count + 1 - ((insertedGroup s.pending p m).msgs.length : Int) ∧
      (2 ≤ (insertedGroup s.pending p m).msgs.length →
        (∃ x ∈ (insertedGroup s.pending p m).msgs, ∃ err, msgKey cfg x = .error err) →
        sent (process_msg cfg s m).2 = [] ∧ invalidExp ∈ (process_msg cfg s m).2) := by
  have hins : insertStep cfg s p m =
      ({ pending := eraseGroup p.gid s.pending,
         pending_count := s.pending_count + 1 - ((insertedGroup s.pending p m).msgs.length : Int) },
        send_group cfg (insertedGroup s.pending p m)) := by
    simp only [insertStep, hcomp, if_true, erase_store]
  refine ⟨?_, ?_, by rw [hins], ?_⟩
  · rw [sent_process_valid cfg s m p hp hc]
    simp only [hcomp, if_true, send_group]
    cases hs : arraySort (gen_comp cfg (msgKey cfg)) (insertedGroup s.pending p m).msgs with
    | error e =>
      left
      obtain ⟨x, y, hxy⟩ := arraySort_error _ _ e hs
      rw [gen_comp_error cfg (msgKey cfg) (msgKey_error cfg) x y e hxy]
      rfl
    | ok r =>
      right
      simp only [sent_sendFrom_length, (arraySort_perm _ _ r hs).length_eq]
  · rw [process_msg_valid cfg s m p hp hc, hins]
    simp only [evictStep]
    split_ifs
    · rfl
    · exact lookup_erase_self _ _
  · intro hlen hbad
    have hs := arraySort_key_throws cfg (msgKey cfg) (msgKey_error cfg) _ hlen hbad
    rw [process_msg_valid cfg s m p hp hc, hins]
    simp [send_group, hs, sent_append, sent_evictStep, invalidExp, sent]

/-- C12, the theorem at the second member of a group of declared count 2 with
an expression that throws. -/
theorem C12_group_key_failure_not_sent_witness :
    sent (process_msg cfgThrows
        (process_msg cfgThrows State.empty (partMsg "g" 0 (some 2) (.int 2))).1
        (partMsg "g" 1 none (.int 1))).2 = [] ∧
      invalidExp ∈ (process_msg cfgThrows
        (process_msg cfgThrows State.empty (partMsg "g" 0 (some 2) (.int 2))).1
        (partMsg "g" 1 none (.int 1))).2 :=
  (C12_group_key_failure_not_sent cfgThrows
    (process_msg cfgThrows State.empty (partMsg "g" 0 (some 2) (.int 2))).1
    (partMsg "g" 1 none (.int 1)) (partsOf "g" 1 none) rfl rfl rfl).2.2.2 (by decide)
    ⟨partMsg "g" 1 none (.int 1), by
      rw [insertedGroup_msgs]
      simp, invalidExp, rfl⟩

/-! ## C13: the three cases of the comparator -/

/-- C13: for every configuration and every two elements whose keys evaluate to
`a` and `b`, the comparator built by `gen_comp` returns 0 when the coerced keys
are equal (`===`), the direction when the first is greater (`>`), and the
opposite of the direction otherwise; the direction is 1 when the order is
`ascending` and -1 otherwise. -/
theorem C13_comparator_three_cases {α : Type} (cfg : Config) (key : α → Except Event JVal)
    (x y : α) (a b : JVal) (hx : key x = .ok a) (hy : key y = .ok b) :
    (JVal.strictEq (conv cfg a) (conv cfg b) = true → gen_comp cfg key x y = .ok 0) ∧
      (JVal.strictEq (conv cfg a) (conv cfg b) = false →
        JVal.gt (conv cfg a) (conv cfg b) = true → gen_comp cfg key x y = .ok (dir cfg)) ∧
      (JVal.strictEq (conv cfg a) (conv cfg b) = false →
        JVal.gt (conv cfg a) (conv cfg b) = false → gen_comp cfg key x y = .ok (-(dir cfg))) ∧
      (cfg.order = "ascending" → dir cfg = 1) ∧ (cfg.order ≠ "ascending" → dir cfg = -1) := by
  rw [gen_comp_ok cfg key x y a b hx hy]
  refine ⟨fun h => by simp [h], fun h1 h2 => by simp [h1, h2], fun h1 h2 => by simp [h1, h2],
    fun h => by simp [dir, h], fun h => by simp [dir, h]⟩

/-- C13, the theorem at the payloads 3 and 1 in descending order: 3 is the
greater and the comparator returns the direction, -1. -/
theorem C13_comparator_three_cases_witness :
    gen_comp cfgDescending (msgKey cfgDescending) (partMsg "g" 0 none (.int 3))
      (partMsg "g" 1 none (.int 1)) = .ok (-1) :=
  (C13_comparator_three_cases cfgDescending (msgKey cfgDescending)
    (partMsg "g" 0 none (.int 3)) (partMsg "g" 1 none (.int 1)) (.int 3) (.int 1) rfl rfl).2.1
    (by decide) (by decide)

/-! ## C14: the comparator as a total preorder -/

/-- C14, the claim as stated fails: without coercion the keys `"1"` and `1`,
neither of which is `NaN`, are not equal (`===`) and neither is greater than
the other, so the comparator returns -1 for both orders of the pair. -/
theorem C14_string_and_number_both_less :
    keyComp cfgPayload (.str "1") (.int 1) = .ok (-1) ∧
      keyComp cfgPayload (.int 1) (.str "1") = .ok (-1) :=
  ⟨rfl, rfl⟩

/-- C14, amended: on keys that after the configured coercion are all numbers
other than `NaN`, or all strings, the comparator built by `gen_comp` is a total
preorder: `comp(a,a) = 0`, `comp(a,b) = -comp(b,a)`, and `comp(a,b) <= 0` and
`comp(b,c) <= 0` imply `comp(a,c) <= 0`. -/
theorem C14_comparator_total_preorder (cfg : Config) (a b c : JVal)
    (hkeys : Comparable cfg (fun k : JVal => .ok k) [a, b, c]) :
    ∃ caa cab cba cbc cac : Int,
      keyComp cfg a a = .ok caa ∧ keyComp cfg a b = .ok cab ∧ keyComp cfg b a = .ok cba ∧
        keyComp cfg b c = .ok cbc ∧ keyComp cfg a c = .ok cac ∧
        caa = 0 ∧ cab = -cba ∧ (cab ≤ 0 → cbc ≤ 0 → cac ≤ 0) := by
  have hd : dir cfg = 1 ∨ dir cfg = -1 := (dir_cases cfg).imp (·.1) (·.1)
  rcases hkeys with h | h
  · obtain ⟨ka, i, hka, hi⟩ := h a (by simp)
    obtain ⟨kb, j, hkb, hj⟩ := h b (by simp)
    obtain ⟨kc, k, hkc, hk⟩ := h c (by simp)
    cases Except.ok.inj hka
    cases Except.ok.inj hkb
    cases Except.ok.inj hkc
    have hp := preorder_linear (dir cfg) hd i j k
    exact ⟨_, _, _, _, _, keyComp_int cfg a a i i hi hi, keyComp_int cfg a b i j hi hj,
      keyComp_int cfg b a j i hj hi, keyComp_int cfg b c j k hj hk,
      keyComp_int cfg a c i k hi hk, hp.1, hp.2.1, hp.2.2⟩
  · obtain ⟨ka, i, hka, hi⟩ := h a (by simp)
    obtain ⟨kb, j, hkb, hj⟩ := h b (by simp)
    obtain ⟨kc, k, hkc, hk⟩ := h c (by simp)
    cases Except.ok.inj hka
    cases Except.ok.inj hkb
    cases Except.ok.inj hkc
    have hp := preorder_linear (dir cfg) hd i j k
    exact ⟨_, _, _, _, _, keyComp_str cfg a a i i hi hi, keyComp_str cfg a b i j hi hj,
      keyComp_str cfg b a j i hj hi, keyComp_str cfg b c j k hj hk,
      keyComp_str cfg a c i k hi hk, hp.1, hp.2.1, hp.2.2⟩

/-- C14, the theorem at the keys `"10"`, `"2"`, `"1"` in numeric mode. -/
theorem C14_comparator_total_preorder_witness :
    ∃ caa cab cba cbc cac : Int,
      keyComp cfgNumeric (.str "10") (.str "10") = .ok caa ∧
        keyComp cfgNumeric (.str "10") (.str "2") = .ok cab ∧
        keyComp cfgNumeric (.str "2") (.str "10") = .ok cba ∧
        keyComp cfgNumeric (.str "2") (.str "1") = .ok cbc ∧
        keyComp cfgNumeric (.str "10") (.str "1") = .ok cac ∧
        caa = 0 ∧ cab = -cba ∧ (cab ≤ 0 → cbc ≤ 0 → cac ≤ 0) :=
  C14_comparator_total_preorder cfgNumeric (.str "10") (.str "2") (.str "1")
    (Or.inl (by
      intro x hx
      simp only [List.mem_cons, List.mem_singleton, List.not_mem_nil, or_false] at hx
      rcases hx with rfl | rfl | rfl
      · exact ⟨_, 10, rfl, rfl⟩
      · exact ⟨_, 2, rfl, rfl⟩
      · exact ⟨_, 1, rfl, rfl⟩))

/-! ## C15: keys that coerce to `NaN` -/

/-- C15: in numeric mode, for every two keys of which one at least coerces to
`NaN`, the comparator returns the opposite of the direction for the pair and
for the pair reversed; that value is neither 0 nor the direction, which the
greater branch returns. -/
theorem C15_nan_compares_less_both_ways (cfg : Config) (a b : JVal) (hnum : cfg.as_num = true)
    (hnan : a.toNumber = .nan ∨ b.toNumber = .nan) :
    keyComp cfg a b = .ok (-(dir cfg)) ∧ keyComp cfg b a = .ok (-(dir cfg)) ∧
      -(dir cfg) ≠ 0 ∧ -(dir cfg) ≠ dir cfg := by
  refine ⟨?_, ?_, dir_ne cfg⟩
  · rw [keyComp_eq]
    simp [conv, hnum, strictEq_nan _ _ hnan, gt_nan _ _ hnan]
  · rw [keyComp_eq]
    simp [conv, hnum, strictEq_nan _ _ hnan.symm, gt_nan _ _ hnan.symm]

/-- C15, the theorem at the keys `"abc"` and 1, and at two keys `"abc"`. -/
theorem C15_nan_compares_less_both_ways_witness :
    (keyComp cfgNumeric (.str "abc") (.int 1) = .ok (-1) ∧
        keyComp cfgNumeric (.int 1) (.str "abc") = .ok (-1)) ∧
      keyComp cfgNumeric (.str "abc") (.str "abc") = .ok (-1) :=
  ⟨⟨(C15_nan_compares_less_both_ways cfgNumeric (.str "abc") (.int 1) rfl (Or.inl rfl)).1,
      (C15_nan_compares_less_both_ways cfgNumeric (.str "abc") (.int 1) rfl (Or.inl rfl)).2.1⟩,
    (C15_nan_compares_less_both_ways cfgNumeric (.str "abc") (.str "abc") rfl (Or.inl rfl)).1⟩

/-! ## C16: numeric and native comparison -/

/-- C16: with the numeric flag the comparator compares the numeric values of
the keys, and without it two strings are compared as strings, character by
character; the payload `["10","2","1"]` sorted ascending is sent as
`["1","2","10"]` with the flag and as `["1","10","2"]` without it, and a group
of three messages with these payloads is sent in the same two orders; the
elements sent are the original strings, and in general a permutation of the
original elements. -/
theorem C16_numeric_and_native_order :
    (∀ (cfg : Config) (a b : JVal) (i j : Int), cfg.as_num = true → a.toNumber = .fin i →
        b.toNumber = .fin j →
        keyComp cfg a b = .ok (if i = j then 0 else if j < i then dir cfg else -(dir cfg))) ∧
      (∀ (cfg : Config) (s t : String), cfg.as_num = false →
        keyComp cfg (.str s) (.str t) =
          .ok (if s = t then 0 else if t < s then dir cfg else -(dir cfg))) ∧
      process_msg cfgNumeric State.empty (arrayMsg [.str "10", .str "2", .str "1"]) =
        (State.empty, [.send (arrayMsg [.str "1", .str "2", .str "10"])]) ∧
      process_msg cfgPayload State.empty (arrayMsg [.str "10", .str "2", .str "1"]) =
        (State.empty, [.send (arrayMsg [.str "1", .str "10", .str "2"])]) ∧
      (sent (run cfgNumeric State.empty
          [partMsg "g" 0 (some 3) (.str "10"), partMsg "g" 1 (some 3) (.str "2"),
            partMsg "g" 2 (some 3) (.str "1")]).2).map Msg.payload =
        [.str "1", .str "2", .str "10"] ∧
      (sent (run cfgPayload State.empty
          [partMsg "g" 0 (some 3) (.str "10"), partMsg "g" 1 (some 3) (.str "2"),
            partMsg "g" 2 (some 3) (.str "1")]).2).map Msg.payload =
        [.str "1", .str "10", .str "2"] ∧
      (∀ (cfg : Config) (elems sorted : List JVal),
        arraySort (sortCompare (gen_comp cfg (elemKey cfg))) elems = .ok sorted →
        sorted.Perm elems) := by
  refine ⟨?_, ?_, rfl, rfl, rfl, rfl, ?_⟩
  · intro cfg a b i j hnum ha hb
    exact keyComp_int cfg a b i j (by simp [conv, hnum, ha, JVal.int])
      (by simp [conv, hnum, hb, JVal.int])
  · intro cfg s t hnum
    exact keyComp_str cfg _ _ s t (by simp [conv, hnum]) (by simp [conv, hnum])
  · intro cfg elems sorted h
    exact arraySort_perm _ _ _ h

/-- C16, the general parts of the theorem at the keys `"10"` and `"2"`: with
the flag `"10"` is the greater, without it `"2"` is. -/
theorem C16_numeric_and_native_order_witness :
    keyComp cfgNumeric (.str "10") (.str "2") = .ok 1 ∧
      keyComp cfgPayload (.str "10") (.str "2") = .ok (-1) :=
  ⟨(C16_numeric_and_native_order.1 cfgNumeric (.str "10") (.str "2") 10 2 rfl rfl rfl).trans rfl,
    (C16_numeric_and_native_order.2.1 cfgPayload "10" "2" rfl).trans (by
      rw [if_neg (by decide), if_neg (by rw [String.lt_iff_toList_lt]; decide)]
      rfl)⟩

/-! ## C17: the completed group is emitted before the eviction check -/

/-- C17: with a threshold `T > 0`, when a valid message completes its group,
the group is removed and `send_group` makes its calls before the eviction
check, which compares the counter after the removal with `T`: when that
counter is at most `T` the state keeps the other groups and no report is made,
whatever the counter was with the group; when it exceeds `T` the state is
cleared and `sort.too-many` is reported after the calls of `send_group`. -/
theorem C17_emission_before_eviction_check (cfg : Config) (s : State) (m : Msg) (p : Parts)
    (hT : 0 < cfg.max_msgs) (hp : m.parts = some p) (hc : check_parts p = true)
    (hcomp : isComplete (insertedGroup s.pending p m) = true) :
    (s.pending_count + 1 - ((insertedGroup s.pending p m).msgs.length : Int) ≤
          (cfg.max_msgs : Int) →
        process_msg cfg s m =
          ({ pending := eraseGroup p.gid s.pending,
             pending_count :=
               s.pending_count + 1 - ((insertedGroup s.pending p m).msgs.length : Int) },
            send_group cfg (insertedGroup s.pending p m))) ∧
      (s.pending_count + 1 - ((insertedGroup s.pending p m).msgs.length : Int) >
          (cfg.max_msgs : Int) →
        process_msg cfg s m =
          (State.empty, send_group cfg (insertedGroup s.pending p m) ++ [tooMany m])) := by
  have hins : insertStep cfg s p m =
      ({ pending := eraseGroup p.gid s.pending,
         pending_count := s.pending_count + 1 - ((insertedGroup s.pending p m).msgs.length : Int) },
        send_group cfg (insertedGroup s.pending p m)) := by
    simp only [insertStep, hcomp, if_true, erase_store]
  rw [process_msg_valid cfg s m p hp hc, hins]
  refine ⟨?_, ?_⟩
  · intro hle
    simp only [evictStep, max_kept_msgs_count]
    rw [if_neg (fun h => absurd hle (not_le.2 h.2))]
    simp
  · intro hgt
    simp only [evictStep, max_kept_msgs_count]
    rw [if_pos ⟨hT, hgt⟩]
    rfl

/-- C17, the theorem with the threshold 1 at the second member of a group of
declared count 2: with the group the counter is 2, the group is sent and
nothing is reported. -/
theorem C17_emission_before_eviction_check_witness :
    process_msg (cfgCap 1)
        (process_msg (cfgCap 1) State.empty (partMsg "g" 0 (some 2) (.int 2))).1
        (partMsg "g" 1 none (.int 1)) =
      (State.empty,
        [.send ((partMsg "g" 1 none (.int 1)).setIndex 0),
          .send ((partMsg "g" 0 (some 2) (.int 2)).setIndex 1)]) :=
  ((C17_emission_before_eviction_check (cfgCap 1)
    (process_msg (cfgCap 1) State.empty (partMsg "g" 0 (some 2) (.int 2))).1
    (partMsg "g" 1 none (.int 1)) (partsOf "g" 1 none) (by decide) rfl rfl rfl).1
    (by decide)).trans rfl

/-! ## C18: a message without a parts descriptor -/

/-- C18, the claim as stated fails: the message has no parts descriptor, its
payload is `[2, 1]` and the key expression throws; `process_msg` reports
`sort.invalid-exp`. -/
theorem C18_key_failure_reported :
    process_msg cfgThrows State.empty (arrayMsg [.int 2, .int 1]) =
      (State.empty, [.error "sort.invalid-exp" none]) :=
  rfl

/-- C18, amended: for a message without a parts descriptor, `process_msg`
leaves `pending` and `pending_count` as they were and sends at most one
message; its calls are none, or the one `node.send` of the message with its
payload sorted, or the one report `sort.invalid-exp` that `eval_jsonata` makes
when the key evaluation throws; when the payload is not an array it makes no
call, and when the key is the element itself it reports no error. -/
theorem C18_message_without_parts (cfg : Config) (s : State) (m : Msg) (hp : m.parts = none) :
    (process_msg cfg s m).1 = s ∧ (sent (process_msg cfg s m).2).length ≤ 1 ∧
      ((process_msg cfg s m).2 = [] ∨
        (∃ elems sorted, m.payload = .arr elems ∧ sorted.Perm elems ∧
          (process_msg cfg s m).2 = [.send { m with payload := .arr sorted }]) ∨
        (process_msg cfg s m).2 = [invalidExp]) ∧
      ((∀ elems, m.payload ≠ .arr elems) → (process_msg cfg s m).2 = []) ∧
      (cfg.key_exp = none → errors (process_msg cfg s m).2 = []) := by
  cases hpay : m.payload with
  | arr elems =>
    cases hs : arraySort (sortCompare (gen_comp cfg (elemKey cfg))) elems with
    | ok sorted =>
      have h1 := process_msg_array cfg s m elems sorted hp hpay hs
      rw [h1]
      refine ⟨rfl, by simp [sent], Or.inr (Or.inl ⟨elems, sorted, rfl,
        arraySort_perm _ _ _ hs, rfl⟩), fun h => absurd rfl (h elems), fun _ => rfl⟩
    | error e =>
      obtain ⟨x, y, hxy⟩ := arraySort_error _ _ e hs
      have he := sortCompare_error _ (gen_comp_error cfg (elemKey cfg) (elemKey_error cfg))
        x y e hxy
      subst he
      have h1 : process_msg cfg s m = (s, [invalidExp]) := by
        simp [process_msg, hp, sort_payload, hpay, hs]
      rw [h1]
      refine ⟨rfl, by simp [sent, invalidExp], Or.inr (Or.inr rfl),
        fun h => absurd rfl (h elems), ?_⟩
      intro hk
      exfalso
      have hx : ∀ v, elemKey cfg v = .ok v := fun v => by simp [elemKey, hk]
      have htot : ∃ r, arraySort (sortCompare (gen_comp cfg (elemKey cfg))) elems = .ok r := by
        apply arraySort_succeeds
        intro a b _ _
        unfold sortCompare
        split_ifs
        · exact ⟨_, rfl⟩
        · exact ⟨_, rfl⟩
        · exact ⟨_, rfl⟩
        · exact ⟨_, gen_comp_ok cfg (elemKey cfg) a b a b (hx a) (hx b)⟩
      obtain ⟨r, hr⟩ := htot
      rw [hs] at hr
      exact absurd hr (by simp)
  | undefined =>
    have h1 : process_msg cfg s m = (s, []) := by simp [process_msg, hp, sort_payload, hpay]
    rw [h1]
    exact ⟨rfl, by simp [sent], Or.inl rfl, fun _ => rfl, fun _ => rfl⟩
  | null =>
    have h1 : process_msg cfg s m = (s, []) := by simp [process_msg, hp, sort_payload, hpay]
    rw [h1]
    exact ⟨rfl, by simp [sent], Or.inl rfl, fun _ => rfl, fun _ => rfl⟩
  | bool b =>
    have h1 : process_msg cfg s m = (s, []) := by simp [process_msg, hp, sort_payload, hpay]
    rw [h1]
    exact ⟨rfl, by simp [sent], Or.inl rfl, fun _ => rfl, fun _ => rfl⟩
  | num n =>
    have h1 : process_msg cfg s m = (s, []) := by simp [process_msg, hp, sort_payload, hpay]
    rw [h1]
    exact ⟨rfl, by simp [sent], Or.inl rfl, fun _ => rfl, fun _ => rfl⟩
  | str t =>
    have h1 : process_msg cfg s m = (s, []) := by simp [process_msg, hp, sort_payload, hpay]
    rw [h1]
    exact ⟨rfl, by simp [sent], Or.inl rfl, fun _ => rfl, fun _ => rfl⟩
  | obj fields =>
    have h1 : process_msg cfg s m = (s, []) := by simp [process_msg, hp, sort_payload, hpay]
    rw [h1]
    exact ⟨rfl, by simp [sent], Or.inl rfl, fun _ => rfl, fun _ => rfl⟩

/-- C18, the theorem at a message whose payload is the string `"x"` and at
one whose payload is `[2, 1]`. -/
theorem C18_message_without_parts_witness :
    process_msg cfgPayload State.empty { payload := .str "x", parts := none, extra := [] } =
        (State.empty, []) ∧
      (process_msg cfgPayload State.empty (arrayMsg [.int 2, .int 1])).1 = State.empty ∧
      errors (process_msg cfgPayload State.empty (arrayMsg [.int 2, .int 1])).2 = [] :=
  ⟨Prod.ext
      (C18_message_without_parts cfgPayload State.empty
        { payload := .str "x", parts := none, extra := [] } rfl).1
      ((C18_message_without_parts cfgPayload State.empty
        { payload := .str "x", parts := none, extra := [] } rfl).2.2.2.1
        (fun _ h => by cases h)),
    (C18_message_without_parts cfgPayload State.empty (arrayMsg [.int 2, .int 1]) rfl).1,
    (C18_message_without_parts cfgPayload State.empty (arrayMsg [.int 2, .int 1]) rfl).2.2.2.2
      rfl⟩

/-! ## C19: the last declared count wins -/

/-- C19: the count of a group after an insertion is the count the inserted
member declares when it declares one, whatever was declared before, and the
count the group had (`undefined` for a new group) when it declares none; the
completeness test of that insertion is made on this count, and a group that
is not complete is stored with it for the members to come.  So of two members
declaring 3 and then 2, the second completes the group; and after two members
declaring 2 and then 3 the group waits for a third. -/
theorem C19_last_declared_count_wins :
    (∀ (pending : List (String × Group)) (p : Parts) (m : Msg) (c : JVal), p.count = some c →
        (insertedGroup pending p m).count = c) ∧
      (∀ (pending : List (String × Group)) (p : Parts) (m : Msg), p.count = none →
        (insertedGroup pending p m).count =
          ((lookupGroup p.gid pending).getD { count := .undefined, msgs := [] }).count) ∧
      (∀ (cfg : Config) (s : State) (m : Msg) (p : Parts), m.parts = some p →
        check_parts p = true → sent (process_msg cfg s m).2 ≠ [] →
        isComplete (insertedGroup s.pending p m) = true) ∧
      (∀ (cfg : Config) (s : State) (m : Msg) (p : Parts),
        isComplete (insertedGroup s.pending p m) = false →
        lookupGroup p.gid (insertStep cfg s p m).1.pending =
          some (insertedGroup s.pending p m)) ∧
      (sent (run cfgPayload State.empty
          [partMsg "g" 0 (some 3) (.int 2), partMsg "g" 1 (some 2) (.int 1)]).2).map
          Msg.payload = [.int 1, .int 2] ∧
      sent (run cfgPayload State.empty
          [partMsg "g" 0 (some 2) (.int 2), partMsg "g" 1 (some 3) (.int 1)]).2 = [] ∧
      (sent (run cfgPayload State.empty
          [partMsg "g" 0 (some 2) (.int 2), partMsg "g" 1 (some 3) (.int 1),
            partMsg "g" 2 none (.int 0)]).2).map Msg.payload = [.int 0, .int 1, .int 2] := by
  refine ⟨?_, ?_, ?_, ?_, rfl, rfl, rfl⟩
  · intro pending p m c h
    simp [insertedGroup, h]
  · intro pending p m h
    simp [insertedGroup, h]
  · intro cfg s m p hp hc hne
    rw [sent_process_valid cfg s m p hp hc] at hne
    by_contra hcomp
    simp [hcomp] at hne
  · intro cfg s m p hcomp
    rw [lookup_insertStep_self]
    simp [hcomp]

/-- C19, the theorem at a member that declares the count 2 in a group whose
first member declared 3. -/
theorem C19_last_declared_count_wins_witness :
    (insertedGroup
        (process_msg cfgPayload State.empty (partMsg "g" 0 (some 3) (.int 2))).1.pending
        (partsOf "g" 1 (some 2)) (partMsg "g" 1 (some 2) (.int 1))).count = .int 2 :=
  C19_last_declared_count_wins.1
    (process_msg cfgPayload State.empty (partMsg "g" 0 (some 3) (.int 2))).1.pending
    (partsOf "g" 1 (some 2)) (partMsg "g" 1 (some 2) (.int 1)) (.int 2) rfl

/-! ## C20: the other groups are not touched -/

/-- C20: when a valid message of group `g` does not trigger the eviction,
every other key of `pending` reads the same group as before, with the same
members in the same order and the same count; the messages sent are members of
the group of `g`, up to `parts.index`, and in a state in which every buffered
message has its place none of them carries another id; hence with the
threshold 0 the messages sent with the id `g`, from the empty store, are those
sent when only the messages with a valid parts descriptor of id `g` are
processed. -/
theorem C20_other_groups_untouched (cfg : Config) (s : State) (m : Msg) (p : Parts)
    (hp : m.parts = some p) (hc : check_parts p = true)
    (hno : ¬ (cfg.max_msgs ≠ 0 ∧
      (insertStep cfg s p m).1.pending_count > (cfg.max_msgs : Int))) :
    (∀ h, h ≠ p.gid → lookupGroup h (process_msg cfg s m).1.pending = lookupGroup h s.pending) ∧
      (∀ x ∈ sent (process_msg cfg s m).2,
        ∃ y ∈ (insertedGroup s.pending p m).msgs, x.dropIndex = y.dropIndex) ∧
      (wfPending s.pending = true →
        ∀ x ∈ sent (process_msg cfg s m).2, ∀ h, h ≠ p.gid → memberOk h x = false) ∧
      (cfg.max_msgs = 0 → ∀ (ms : List Msg) (g : String),
        (sent (run cfg State.empty ms).2).filter (memberOk g) =
          sent (run cfg State.empty (ms.filter (memberOk g))).2) := by
  have hev : evictStep cfg (insertStep cfg s p m).1 m = ((insertStep cfg s p m).1, []) := by
    simp only [evictStep, max_kept_msgs_count]
    rw [if_neg]
    intro h
    exact hno ⟨Nat.pos_iff_ne_zero.1 h.1, h.2⟩
  refine ⟨?_, ?_, ?_, ?_⟩
  · intro h hne
    rw [process_msg_valid cfg s m p hp hc, hev]
    exact lookup_insertStep_ne cfg s p m h hne
  · intro x hx
    rw [sent_process_valid cfg s m p hp hc] at hx
    split_ifs at hx
    · exact sent_send_group_members cfg _ x hx
    · simp at hx
  · intro hwf x hx h hne
    rw [sent_process_valid cfg s m p hp hc] at hx
    split_ifs at hx
    · exact memberOk_unique p.gid h x
        (sent_send_group_memberOk cfg _ p.gid (insertedGroup_memberOk s.pending p m hwf hp hc)
          x hx) hne
    · simp at hx
  · intro h0 ms g
    exact run_filter cfg h0 g ms State.empty State.empty rfl rfl

/-- C20, the theorem at a message of group `g` arriving while group `h` holds a
message: the group of `h` is as before; and the messages of `g` sent when the
two groups are interleaved are those sent when `g` comes alone. -/
theorem C20_other_groups_untouched_witness :
    lookupGroup "h" (process_msg cfgPayload
        (process_msg cfgPayload State.empty (partMsg "h" 0 (some 2) (.int 9))).1
        (partMsg "g" 0 (some 1) (.int 1))).1.pending =
        lookupGroup "h"
          (process_msg cfgPayload State.empty (partMsg "h" 0 (some 2) (.int 9))).1.pending ∧
      (sent (run cfgPayload State.empty
          [partMsg "g" 0 (some 2) (.int 2), partMsg "h" 0 (some 2) (.int 9),
            partMsg "g" 1 none (.int 1), partMsg "h" 1 none (.int 8)]).2).filter
          (memberOk "g") =
        sent (run cfgPayload State.empty
          ([partMsg "g" 0 (some 2) (.int 2), partMsg "h" 0 (some 2) (.int 9),
            partMsg "g" 1 none (.int 1), partMsg "h" 1 none (.int 8)].filter
              (memberOk "g"))).2 :=
  ⟨(C20_other_groups_untouched cfgPayload
      (process_msg cfgPayload State.empty (partMsg "h" 0 (some 2) (.int 9))).1
      (partMsg "g" 0 (some 1) (.int 1)) (partsOf "g" 0 (some 1)) rfl rfl
      (fun h => h.1 rfl)).1 "h" (by decide),
    (C20_other_groups_untouched cfgPayload
      (process_msg cfgPayload State.empty (partMsg "h" 0 (some 2) (.int 9))).1
      (partMsg "g" 0 (some 1) (.int 1)) (partsOf "g" 0 (some 1)) rfl rfl
      (fun h => h.1 rfl)).2.2.2 rfl _ "g"⟩

end SortNode
